import Mathlib

/-!
Shallow embedding of the workflow-graph visualizer of the
nextflow-pipeline-builder repository (the `parseWorkflow` function and the
canvas-resizing render step of the `WorkflowVisualizer` component).

Modelling conventions:
* JavaScript numbers are modelled as exact rationals (`ℚ`).  All facts
  proved below only ever evaluate coordinates at values where IEEE-754
  double arithmetic is exact as well (small integers and halves), so the
  idealisation is harmless for the statements made here.
* JavaScript strings are modelled as `String` / `List Char`; the two
  regular expressions of the source are compiled by hand into equivalent
  character-level scanners (see `matchCallAt` and `matchOutRefAt`).
* The `Map` / plain-object dictionaries of the source are modelled as
  association lists with JS property get/set semantics (`getEntry`,
  `setEntry`).
* The `while` loop of the topological layering is modelled with an explicit
  fuel argument; the fuel passed at the call site (`kahnFuel`) is a strict
  upper bound on the number of waves the loop can perform, so the fuelled
  function computes exactly what the source loop computes.
-/

namespace NextflowViz

/-- JS `\w` character class (no unicode flag): `[A-Za-z0-9_]`. -/
def isWordChar (c : Char) : Bool :=
  c.isAlpha || c.isDigit || c = '_'

/-- JS `\s` character class, restricted to the ASCII whitespace characters
(the only ones occurring in the workflow sources considered here). -/
def isSpaceChar (c : Char) : Bool :=
  c = ' ' || c = '\t' || c = '\n' || c = '\r' || c = '\x0b' || c = '\x0c'

/-- One raw match of the call regex `(\w+)\s*\(([^)]*)\)`:
captured identifier and captured raw argument text. -/
structure RawCall where
  name : List Char
  args : List Char
deriving DecidableEq, Repr

/-- Predicate used for the `[^)]*` part of the call regex. -/
def notClose (c : Char) : Bool :=
  !(c = ')')

/-- Attempt to match the regex `(\w+)\s*\(([^)]*)\)` anchored at the start
of `l`; on success return the two capture groups and the remainder of the
text after the match (JS `lastIndex` behaviour).  Backtracking cannot help
this pattern (a shorter `\w+` or `\s*` always fails on the next literal),
so the greedy straight-line scan below is exactly the JS semantics. -/
def matchCallAt (l : List Char) : Option (RawCall × List Char) :=
  let name := l.takeWhile isWordChar
  let r1 := (l.dropWhile isWordChar).dropWhile isSpaceChar
  if name = [] then none
  else if r1.head? = some '(' then
    let r2 := r1.tail
    let args := r2.takeWhile notClose
    let rest := r2.dropWhile notClose
    if rest.head? = some ')' then some (⟨name, args⟩, rest.tail)
    else none
  else none

/-- The `while ((match = processCallRegex.exec(workflowContent)) !== null)`
loop: find successive non-overlapping matches left to right.  When no match
starts at the current position the scan advances one character, which is the
regex engine's behaviour of trying every start position in order.  `fuel`
strictly exceeding the length of the text makes the scan run to the end of
the text (each step consumes at least one character). -/
def scanCallsAux : Nat → List Char → List RawCall
  | 0, _ => []
  | _ + 1, [] => []
  | fuel + 1, c :: rest =>
    match matchCallAt (c :: rest) with
    | some (rc, r) => rc :: scanCallsAux fuel r
    | none => scanCallsAux fuel rest

/-- All matches of the call regex in a string, in textual order. -/
def scanCalls (s : String) : List RawCall :=
  scanCallsAux (s.data.length + 1) s.data

/-- Attempt to match the regex `(\w+)\.out(?:\.\w+)?` anchored at the start
of `l`; returns the captured source-process identifier and the remainder
after the match.  As with the call regex, greedy matching with no effective
backtracking is exactly the JS semantics here. -/
def matchOutRefAt (l : List Char) : Option (List Char × List Char) :=
  let name := l.takeWhile isWordChar
  let r1 := l.dropWhile isWordChar
  if name = [] then none
  else if r1.take 4 = [ '.', 'o', 'u', 't' ] then
    let r2 := r1.drop 4
    if r2.head? = some '.' ∧ r2.tail.takeWhile isWordChar ≠ [] then
      some (name, r2.tail.dropWhile isWordChar)
    else some (name, r2)
  else none

/-- The scan loop for the source-process regex over a call's argument
text; mirrors `scanCallsAux`. -/
def scanOutRefsAux : Nat → List Char → List (List Char)
  | 0, _ => []
  | _ + 1, [] => []
  | fuel + 1, c :: rest =>
    match matchOutRefAt (c :: rest) with
    | some (nm, r) => nm :: scanOutRefsAux fuel r
    | none => scanOutRefsAux fuel rest

/-- All `(\w+)\.out(?:\.\w+)?` capture-1 identifiers in a string, in
textual order. -/
def scanOutRefs (s : String) : List String :=
  (scanOutRefsAux (s.data.length + 1) s.data).map List.asString

/-- The `NextflowProcess` interface of `types.ts` (all fields are
strings). -/
structure NextflowProcess where
  id : String
  name : String
  description : String
  inputDeclarations : String
  outputDeclarations : String
  directiveDeclarations : String
  script : String
deriving DecidableEq, Repr

/-- `const definedProcessNames = processes.map(p => p.name)`. -/
def definedNames (processes : List NextflowProcess) : List String :=
  processes.map (·.name)

/-- One entry of `calledProcessInstances`. -/
structure CalledInstance where
  name : String
  callId : String
  inputs : String
deriving DecidableEq, Repr

/-- The filtering/indexing done inside the exec loop: keep matches whose
identifier is a defined process name, tagging each kept match with
`` `${processName}_${callIndex++}` `` (the counter advances only on kept
matches). -/
def indexCalls (defined : List String) : List RawCall → Nat → List CalledInstance
  | [], _ => []
  | rc :: rest, i =>
    let nm := rc.name.asString
    if nm ∈ defined then
      ⟨nm, nm ++ "_" ++ toString i, rc.args.asString⟩ :: indexCalls defined rest (i + 1)
    else
      indexCalls defined rest i

/-- The full extraction phase of `parseWorkflow` (string input already
established): ordered `calledProcessInstances`. -/
def calledProcessInstances (workflowContent : String) (processes : List NextflowProcess) :
    List CalledInstance :=
  indexCalls (definedNames processes) (scanCalls workflowContent) 0

/-- Layout constants of the source. -/
def NODE_WIDTH : ℚ := 180

def NODE_HEIGHT : ℚ := 60

def X_SPACING : ℚ := 80

def Y_SPACING : ℚ := 100

/-- The `VisNode` record. -/
structure VisNode where
  id : String
  name : String
  x : ℚ
  y : ℚ
  width : ℚ
  height : ℚ
deriving DecidableEq, Repr

/-- The `VisEdge` record. -/
structure VisEdge where
  id : String
  source : String
  target : String
  startX : ℚ
  startY : ℚ
  endX : ℚ
  endY : ℚ
  controlX : ℚ
  controlY : ℚ
deriving DecidableEq, Repr

/-- JS object / `Map` property read. -/
def getEntry {α : Type} (k : String) : List (String × α) → Option α
  | [] => none
  | (k', v) :: rest => if k' = k then some v else getEntry k rest

/-- JS object / `Map` property write (overwrites an existing key, appends a
fresh one; key uniqueness of the association list is preserved). -/
def setEntry {α : Type} (k : String) (v : α) : List (String × α) → List (String × α)
  | [] => [(k, v)]
  | (k', v') :: rest => if k' = k then (k, v) :: rest else (k', v') :: setEntry k v rest

/-- State of the node-building pass: the `nodes` array plus the adjacency
object `G` and the `inDegree` object (the `nodeMap` of the source is keyed
by `id` and always mirrors `nodes`, so it is modelled by lookup in
`nodes`). -/
structure BuildSt where
  nodes : List VisNode
  G : List (String × List String)
  inDegree : List (String × Int)
deriving Repr

/-- `nodeMap.has(inst.name)`. -/
def hasNodeId (nodes : List VisNode) (nm : String) : Bool :=
  nodes.any (fun n => decide (n.id = nm))

/-- Body of the first `calledProcessInstances.forEach`: create the node,
`G` entry and `inDegree` entry for a not-yet-seen process name. -/
def addNode (st : BuildSt) (inst : CalledInstance) : BuildSt :=
  if hasNodeId st.nodes inst.name then st
  else
    ⟨st.nodes ++ [⟨inst.name, inst.name, 0, 0, NODE_WIDTH, NODE_HEIGHT⟩],
      setEntry inst.name [] st.G,
      setEntry inst.name 0 st.inDegree⟩

/-- The first `forEach` loop over `calledProcessInstances`. -/
def buildNodes : List CalledInstance → BuildSt → BuildSt
  | [], st => st
  | inst :: rest, st => buildNodes rest (addNode st inst)

/-- State of the edge-building pass. -/
structure EdgeSt where
  edges : List VisEdge
  G : List (String × List String)
  inDegree : List (String × Int)
deriving Repr

/-- `` `${sourceProcessName}->${targetProcessName}` ``. -/
def edgeId (s t : String) : String :=
  s ++ "->" ++ t

/-- `edges.find(e => e.id === edgeId)` as a Boolean. -/
def hasEdgeId (edges : List VisEdge) (eid : String) : Bool :=
  edges.any (fun e => decide (e.id = eid))

/-- Body of the inner `while` over source references of one call: register
the edge `source -> target` if the source is a declared name, is not the
target itself and the edge id is new; update `G` (only when the source has
an adjacency entry, i.e. is itself a node) and increment
`inDegree[target]`.

This is the TOTAL restriction of the real JS step: the read
`G[sourceProcessName]` on a plain object falls through to
`Object.prototype` when the key is no own property, so for a source named
after one of its members the guard throws a `TypeError` instead of
proceeding.  The throwing-aware model is `addEdgeJs` below, and
`addEdgeJs_ok` proves this function computes exactly the state of every
non-throwing run. -/
def addEdge (defined : List String) (target : String) (st : EdgeSt) (source : String) :
    EdgeSt :=
  if source ∈ defined ∧ source ≠ target then
    let eid := edgeId source target
    if hasEdgeId st.edges eid then st
    else
      ⟨st.edges ++ [⟨eid, source, target, 0, 0, 0, 0, 0, 0⟩],
        (match getEntry source st.G with
          | some l => if target ∈ l then st.G else setEntry source (l ++ [target]) st.G
          | none => st.G),
        setEntry target ((getEntry target st.inDegree).getD 0 + 1) st.inDegree⟩
  else st

/-- One iteration of the second `calledProcessInstances.forEach` (the
`typeof inputArgs !== 'string'` guard of the source is vacuous here because
the captured argument text is always a string). -/
def processInstEdges (defined : List String) (st : EdgeSt) (inst : CalledInstance) :
    EdgeSt :=
  (scanOutRefs inst.inputs).foldl (addEdge defined inst.name) st

/-- The second `forEach` loop over `calledProcessInstances`. -/
def buildEdges (defined : List String) (insts : List CalledInstance) (st : EdgeSt) :
    EdgeSt :=
  insts.foldl (processInstEdges defined) st

/-- `inDegree[node.id] === 0` (an absent property compares unequal). -/
def degIsZero (deg : List (String × Int)) (k : String) : Bool :=
  match getEntry k deg with
  | some v => decide (v = 0)
  | none => false

/-- The queue-seeding loop `nodes.forEach(... if (inDegree[node.id] === 0)
queue.push(node.id))`. -/
def seedQueue (nodes : List VisNode) (deg : List (String × Int)) : List String :=
  (nodes.filter (fun n => degIsZero deg n.id)).map (·.id)

/-- `G[u] || []`. -/
def gSucc (G : List (String × List String)) (u : String) : List String :=
  (getEntry u G).getD []

/-- `inDegree[v]--; if (inDegree[v] === 0) queue.push(v)`.  A decrement of
an absent property would store `NaN` in the source, which compares unequal
to `0` forever after; storing `-1` (and further decrements) has the same
observable behaviour, and in fact every decremented key is a node id and
therefore present. -/
def decSucc (p : List (String × Int) × List String) (v : String) :
    List (String × Int) × List String :=
  let nd := (getEntry v p.1).getD 0 - 1
  (setEntry v nd p.1, if nd = 0 then p.2 ++ [v] else p.2)

/-- One wave of the layering loop: `layerSize` is fixed before the inner
`for`, so exactly the queue entries present at the start of the round are
shifted; anything pushed during the round forms the next queue.  Returns
(layer contents, next queue, updated in-degrees).  The `if (!u) continue`
guard of the source skips an empty-string id. -/
def processWave (G : List (String × List String)) :
    List String → List (String × Int) → List String × List String × List (String × Int)
  | [], deg => ([], [], deg)
  | u :: rest, deg =>
    if u = "" then processWave G rest deg
    else
      let res := (gSucc G u).foldl decSucc (deg, [])
      let out := processWave G rest res.1
      (u :: out.1, res.2 ++ out.2.1, out.2.2)

/-- The outer `while (queue.length > 0)` loop, fuelled.  Each wave strictly
decreases `queue.length + degSumPos inDegree` (proved below), so fuel
`kahnFuel` makes this compute exactly the layers the source loop
computes. -/
def kahnLoop (G : List (String × List String)) :
    Nat → List String → List (String × Int) → List (List String)
  | 0, _, _ => []
  | fuel + 1, q, deg =>
    if q = [] then []
    else
      let w := processWave G q deg
      w.1 :: kahnLoop G fuel w.2.1 w.2.2

/-- Sum of the positive parts of the in-degree table: the termination
measure of the layering loop. -/
def degSumPos (deg : List (String × Int)) : Nat :=
  (deg.map (fun p => p.2.toNat)).sum

/-- Sufficient fuel for `kahnLoop`. -/
def kahnFuel (q : List String) (deg : List (String × Int)) : Nat :=
  q.length + degSumPos deg + 1

/-- Placement of one layer row: `layer.forEach(nodeId => ...)`; the x
cursor advances only when the node id resolves in the node map. -/
def placeRow (nodes : List VisNode) (y : ℚ) :
    List String → ℚ → List (String × ℚ × ℚ) → List (String × ℚ × ℚ)
  | [], _, acc => acc
  | nodeId :: rest, currentX, acc =>
    if hasNodeId nodes nodeId then
      placeRow nodes y rest (currentX + NODE_WIDTH + X_SPACING)
        (setEntry nodeId (currentX, y) acc)
    else
      placeRow nodes y rest currentX acc

/-- The `layers.forEach((layer, layerIndex) => ...)` loop, producing the
final position of every placed node id (writes through the node map are
modelled by an association-list assignment, later writes overwriting
earlier ones exactly as mutation would). -/
def placeLayers (nodes : List VisNode) (W : ℚ) :
    List (List String) → Nat → List (String × ℚ × ℚ) → List (String × ℚ × ℚ)
  | [], _, acc => acc
  | layer :: rest, idx, acc =>
    let layerWidth := (layer.length : ℚ) * NODE_WIDTH + ((layer.length : ℚ) - 1) * X_SPACING
    let c := (W - layerWidth) / 2
    let start := if c < X_SPACING then X_SPACING else c
    let y := (idx : ℚ) * (NODE_HEIGHT + Y_SPACING) + Y_SPACING
    placeLayers nodes W rest (idx + 1) (placeRow nodes y layer start acc)

/-- Apply the computed positions to the node array. -/
def applyPositions (pos : List (String × ℚ × ℚ)) (nodes : List VisNode) : List VisNode :=
  nodes.map fun n =>
    match getEntry n.id pos with
    | some p => ⟨n.id, n.name, p.1, p.2, n.width, n.height⟩
    | none => n

/-- Model of `Math.sqrt` on rationals: exact whenever the argument is the
square of a rational (the only case in which any statement below inspects
its value); on other inputs it returns the floor-ish approximation obtained
from natural square roots, standing in for the IEEE approximation. -/
def ratSqrt (q : ℚ) : ℚ :=
  (Nat.sqrt q.num.toNat : ℚ) / (Nat.sqrt q.den : ℚ)

/-- `nodeMap.get` by id. -/
def findNode (nodes : List VisNode) (nm : String) : Option VisNode :=
  nodes.find? (fun n => decide (n.id = nm))

/-- The `edges.forEach` geometry pass for one edge.  The provisional
control point computed on source lines 172–178 is dead code (both branches
of the subsequent `if (edge.startY < edge.endY)` overwrite both
coordinates), so it is not reproduced.  JS literals `0.6`, `0.25` and
`0.5` are the rationals `3/5`, `1/4` and `1/2`. -/
def edgeGeom (nodes : List VisNode) (e : VisEdge) : VisEdge :=
  match findNode nodes e.source, findNode nodes e.target with
  | some s, some t =>
    let startX := s.x + s.width / 2
    let startY := s.y + s.height
    let endX := t.x + t.width / 2
    let endY := t.y
    let midX := (startX + endX) / 2
    let midY := (startY + endY) / 2
    let dx := endX - startX
    let dy := endY - startY
    let len := ratSqrt (dx * dx + dy * dy)
    let curvature := min (len * (1 / 4)) 50
    let ctrl : ℚ × ℚ :=
      if startY < endY then
        ((if startX > endX then startX - (startX - endX) * (1 / 2) - 30
          else if startX < endX then startX + (endX - startX) * (1 / 2) + 30
          else midX + 30),
          startY + (endY - startY) * (3 / 5))
      else
        (midX + curvature, midY)
    ⟨e.id, e.source, e.target, startX, startY, endX, endY, ctrl.1, ctrl.2⟩
  | _, _ => e

/-- The result record of `parseWorkflow`. -/
structure ParseResult where
  nodes : List VisNode
  edges : List VisEdge
deriving DecidableEq, Repr

/-- Stage: state after node building. -/
def buildStOf (src : String) (procs : List NextflowProcess) : BuildSt :=
  buildNodes (calledProcessInstances src procs) ⟨[], [], []⟩

/-- Stage: state after edge building. -/
def edgeStOf (src : String) (procs : List NextflowProcess) : EdgeSt :=
  buildEdges (definedNames procs) (calledProcessInstances src procs)
    ⟨[], (buildStOf src procs).G, (buildStOf src procs).inDegree⟩

/-- Stage: the seeded zero-in-degree queue. -/
def queueOf (src : String) (procs : List NextflowProcess) : List String :=
  seedQueue (buildStOf src procs).nodes (edgeStOf src procs).inDegree

/-- Stage: the topological layers computed by the `while` loop. -/
def layersOf (src : String) (procs : List NextflowProcess) : List (List String) :=
  kahnLoop (edgeStOf src procs).G
    (kahnFuel (queueOf src procs) (edgeStOf src procs).inDegree)
    (queueOf src procs) (edgeStOf src procs).inDegree

/-- Stage: node positions for canvas width `W`. -/
def positionsOf (W : ℚ) (src : String) (procs : List NextflowProcess) :
    List (String × ℚ × ℚ) :=
  placeLayers (buildStOf src procs).nodes W (layersOf src procs) 0 []

/-- `parseWorkflow` on an established string input, parameterised by the
`canvasSizeForLayout.width` value in effect at call time (the source reads
it from a module-level mutable record). -/
def parseWorkflowStr (W : ℚ) (src : String) (procs : List NextflowProcess) : ParseResult :=
  ⟨applyPositions (positionsOf W src procs) (buildStOf src procs).nodes,
    (edgeStOf src procs).edges.map
      (edgeGeom (applyPositions (positionsOf W src procs) (buildStOf src procs).nodes))⟩

/-- A JS runtime value handed to `parseWorkflow` as `workflowContent`; the
function only discriminates `typeof value === 'string'`. -/
inductive JsValue where
  | str : String → JsValue
  | num : ℚ → JsValue
  | bool : Bool → JsValue
  | nul : JsValue
  | undef : JsValue
deriving DecidableEq, Repr

/-- `parseWorkflow` including the `typeof workflowContent !== 'string'`
early return. -/
def parseWorkflow (W : ℚ) (workflowContent : JsValue) (procs : List NextflowProcess) :
    ParseResult :=
  match workflowContent with
  | .str s => parseWorkflowStr W s procs
  | _ => ⟨[], []⟩

/-- The module-level mutable `canvasSizeForLayout` record (initial
value). -/
structure CanvasSize where
  width : ℚ
  height : ℚ
deriving DecidableEq, Repr

/-- Initial value `{ width: 800, height: 600 }`. -/
def initialCanvas : CanvasSize :=
  ⟨800, 600⟩

/-- The bounding-box scan of the `useEffect` body (`maxX`/`maxY` start at
`0` and are raised over all nodes). -/
def boundsMax (nodes : List VisNode) : ℚ × ℚ :=
  nodes.foldl (fun a n => (max a.1 (n.x + n.width), max a.2 (n.y + n.height))) (0, 0)

/-- One render of `WorkflowVisualizer` for a given current value of the
shared mutable `canvasSizeForLayout`: runs `parseWorkflow`, then overwrites
the shared record with `Math.max(800, maxX + X_SPACING*2)` and
`Math.max(600, maxY + Y_SPACING*2)`.  Returns the parse result and the
canvas value left behind for the next render. -/
def renderOnce (cs : CanvasSize) (src : JsValue) (procs : List NextflowProcess) :
    ParseResult × CanvasSize :=
  let out := parseWorkflow cs.width src procs
  let m := boundsMax out.nodes
  (out, ⟨max 800 (m.1 + X_SPACING * 2), max 600 (m.2 + Y_SPACING * 2)⟩)

/-- Propositional equality of `Except` results is decidable when both
component types are. -/
instance exceptDecEq {ε α : Type} [DecidableEq ε] [DecidableEq α] :
    DecidableEq (Except ε α) := fun a b =>
  match a, b with
  | Except.error x, Except.error y =>
    if h : x = y then Decidable.isTrue (by rw [h])
    else Decidable.isFalse (fun hc => h (by cases hc; rfl))
  | Except.error _, Except.ok _ => Decidable.isFalse (fun hc => Except.noConfusion hc)
  | Except.ok _, Except.error _ => Decidable.isFalse (fun hc => Except.noConfusion hc)
  | Except.ok x, Except.ok y =>
    if h : x = y then Decidable.isTrue (by rw [h])
    else Decidable.isFalse (fun hc => h (by cases hc; rfl))

/-- Index of the first layer containing a given node id. -/
def layerIndexOf (ls : List (List String)) (x : String) : Option Nat :=
  ls.findIdx? (fun L => decide (x ∈ L))

/-- The id `b` is assigned to a strictly later layer than the id `a`. -/
def laterLayer (ls : List (List String)) (a b : String) : Prop :=
  ∃ i j, layerIndexOf ls a = some i ∧ layerIndexOf ls b = some j ∧ i < j

/-- Concatenation of all layers: the set of ids that were placed. -/
def layeredIds (ls : List (List String)) : List String :=
  ls.flatten

/-- The decomposition property guaranteed for the call scanner's output:
the scanned calls occur left to right in the text, each one as its
identifier, optional whitespace, an opening parenthesis, the verbatim
argument text (which contains no close-paren: the scan stops at the first
one) and the closing parenthesis, with the following matches taken from
the remaining text only. -/
def LaysOut : List Char → List RawCall → Prop
  | _, [] => True
  | src, rc :: rest =>
    ∃ pre ws tail,
      src = pre ++ rc.name ++ ws ++ '(' :: (rc.args ++ ')' :: tail) ∧
      (∀ c ∈ ws, isSpaceChar c) ∧
      rc.name ≠ [] ∧ (∀ c ∈ rc.name, isWordChar c) ∧
      (∀ c ∈ rc.args, notClose c) ∧
      LaysOut tail rest

/-- The leftmost x coordinate claim C7 prescribes for a layer of `len`
nodes: the centered position, replaced by the minimum left margin only if
the centered position would be negative. -/
def claimedStartX (W : ℚ) (len : Nat) : ℚ :=
  let layerWidth := (len : ℚ) * NODE_WIDTH + ((len : ℚ) - 1) * X_SPACING
  let c := (W - layerWidth) / 2
  if c < 0 then X_SPACING else c

/-- The leftmost x coordinate the code actually uses: the centered
position, replaced by `X_SPACING` whenever it is smaller than
`X_SPACING`. -/
def codeStartX (W : ℚ) (len : Nat) : ℚ :=
  let layerWidth := (len : ℚ) * NODE_WIDTH + ((len : ℚ) - 1) * X_SPACING
  let c := (W - layerWidth) / 2
  if c < X_SPACING then X_SPACING else c

/-- Claim C7 as stated, as a predicate on one engine input. -/
def C7ClaimStatement (W : ℚ) (src : String) (procs : List NextflowProcess) : Prop :=
  ∀ i layer, (layersOf src procs).get? i = some layer →
    ∀ j nodeId, layer.get? j = some nodeId →
      ∀ n ∈ (parseWorkflowStr W src procs).nodes, n.id = nodeId →
        n.x = claimedStartX W layer.length + (j : ℚ) * (NODE_WIDTH + X_SPACING) ∧
        n.y = (i : ℚ) * (NODE_HEIGHT + Y_SPACING) + Y_SPACING

/-- Invariant of the edge list maintained by the edge-building pass: at
most one edge per ordered (source, target) pair, never a self-loop, both
endpoints declared, the target always a node id, the id field determined
by the endpoints (which consist of word characters, making the id
injective in the pair), and all geometry still at the placeholder 0. -/
def EdgeListInv (defined : List String) (nodeIds : List String) (edges : List VisEdge) :
    Prop :=
  edges.Pairwise (fun e₁ e₂ => ¬(e₁.source = e₂.source ∧ e₁.target = e₂.target)) ∧
    ∀ e ∈ edges, e.id = edgeId e.source e.target ∧ e.source ≠ e.target ∧
      e.source ∈ defined ∧ e.target ∈ defined ∧ e.target ∈ nodeIds ∧
      (∀ ch ∈ e.source.data, isWordChar ch = true) ∧
      (∀ ch ∈ e.target.data, isWordChar ch = true) ∧
      e.startX = 0 ∧ e.startY = 0 ∧ e.endX = 0 ∧ e.endY = 0 ∧
      e.controlX = 0 ∧ e.controlY = 0

/-- Relation between the adjacency object `G`, the edge list `E` and the
node-id list established by the build passes: every adjacency entry is
duplicate-free and backed by a recorded edge, recorded edges have pairwise
distinct (source, target) pairs, every edge target is a node id, and the
empty string is not a node id. -/
def GraphRel (G : List (String × List String)) (E : List VisEdge)
    (nodeIds : List String) : Prop :=
  (∀ u l, getEntry u G = some l → l.Nodup ∧
    ∀ v ∈ l, ∃ e ∈ E, e.source = u ∧ e.target = v) ∧
    E.Pairwise (fun e₁ e₂ => ¬(e₁.source = e₂.source ∧ e₁.target = e₂.target)) ∧
    (∀ e ∈ E, e.target ∈ nodeIds) ∧
    "" ∉ nodeIds

/-- Invariant of the layering loop: `pl` is the list of already-placed
(processed) ids, `q` the ids scheduled for processing, `deg` the current
in-degree table.  It records disjointness and duplicate-freedom, the
counting identity tying `deg` to the recorded edges minus the processed
decrements, the closure property (every edge into a placed or scheduled
node comes from a placed node), and that placed or scheduled nodes have
non-positive in-degree. -/
def KahnInv (G : List (String × List String)) (E : List VisEdge)
    (nodeIds : List String) (pl q : List String) (deg : List (String × Int)) : Prop :=
  pl.Nodup ∧ q.Nodup ∧ (∀ x ∈ q, x ∉ pl) ∧ (∀ x ∈ q, x ∈ nodeIds) ∧
    (∀ x ∈ pl, x ∈ nodeIds) ∧
    (∀ t, ((getEntry t deg).getD 0 : ℤ) =
      ((E.filter (fun e => e.target = t)).length : ℤ) -
        ((pl.filter (fun u => t ∈ gSucc G u)).length : ℤ)) ∧
    (∀ v, v ∈ pl ∨ v ∈ q → ∀ e ∈ E, e.target = v → e.source ∈ pl) ∧
    (∀ v, v ∈ pl ∨ v ∈ q → ((getEntry v deg).getD 0 : ℤ) ≤ 0)

/-- Helper for concrete inputs: a process declaration with a given name
(the other fields of `NextflowProcess` play no role in the visualizer). -/
def mkProc (nm : String) : NextflowProcess :=
  ⟨nm, nm, nm, nm, nm, nm, nm⟩

/-- Concrete names used by the witness inputs. -/
def strA : String := "A"

def strB : String := "B"

def strC : String := "C"

def strP : String := "P"

def strT : String := "T"

def strZ : String := "Z"

/-- A two-node cyclic workflow: `A(B.out)` and `B(A.out)`. -/
def cycSrc : String := "A(B.out)\nB(A.out)"

/-- A two-node chain: `A(ch)` then `B(A.out)`. -/
def chainSrc : String := "A(ch)\nB(A.out)"

/-- A three-node diamond-ish chain: `A(ch)`, `B(A.out)`, `C(A.out, B.out)`. -/
def chain3Src : String := "A(ch)\nB(A.out)\nC(A.out, B.out)"

/-- Three independent roots (one layer of three nodes). -/
def threeSrc : String := "A(x)\nB(y)\nC(z)"

/-- A call to `T` referencing declared-but-never-called `P`. -/
def phantomSrc : String := "T(P.out)"

/-- A call to an undeclared name. -/
def undeclSrc : String := "Z(x)"

/-- A call whose arguments contain a nested parenthesized expression. -/
def nestedSrc : String := "A(f(x), y)"

/-- The argument text retained for `nestedSrc`: truncated at the first
close-paren. -/
def truncArgs : String := "f(x"

/-- The call id assigned to the first recognized call. -/
def callIdA0 : String := "A_0"

def abProcs : List NextflowProcess := [ mkProc strA, mkProc strB ]

def abcProcs : List NextflowProcess := [ mkProc strA, mkProc strB, mkProc strC ]

def ptProcs : List NextflowProcess := [ mkProc strP, mkProc strT ]

def aOnlyProcs : List NextflowProcess := [ mkProc strA ]

def cycJs : JsValue := JsValue.str cycSrc

def chainJs : JsValue := JsValue.str chainSrc

def chain3Js : JsValue := JsValue.str chain3Src

def threeJs : JsValue := JsValue.str threeSrc

/-!  Theorems.  -/

/-- C10: if the workflow source input is not a string, `parseWorkflow`
returns an empty node set and an empty edge set, without any error. -/
theorem c10_nonstring_noop (W : ℚ) (v : JsValue) (procs : List NextflowProcess)
    (h : ∀ s, v ≠ JsValue.str s) : parseWorkflow W v procs = ⟨[], []⟩ := by
  cases v with
  | str s => exact absurd rfl (h s)
  | num q => rfl
  | bool b => rfl
  | nul => rfl
  | undef => rfl

/-- Witness for C10, at the runtime value `undefined`. -/
theorem c10_nonstring_noop_witness :
    (∀ s, JsValue.undef ≠ JsValue.str s) ∧
      parseWorkflow 800 JsValue.undef abProcs = ⟨[], []⟩ :=
  ⟨fun _ h => JsValue.noConfusion h,
    c10_nonstring_noop 800 JsValue.undef abProcs (fun _ h => JsValue.noConfusion h)⟩

/-- Counterexample to C1 as stated: on the two-cycle `A(B.out)`,
`B(A.out)` the returned node set is not empty (the nodes are only left
out of the layers, not out of the returned node array). -/
theorem c1_counterexample :
    (parseWorkflow 800 cycJs abProcs).nodes ≠ [] := by
  decide

/-- C1 amended: on the two-cycle both nodes are still returned, at their
placeholder coordinates (0,0); both cycle edges are recorded; no layer is
produced (so the nodes are laid out nowhere); and the function returns
normally. -/
theorem c1_cycle_nodes_retained :
    (parseWorkflow 800 cycJs abProcs).nodes =
        [ ⟨strA, strA, 0, 0, 180, 60⟩, ⟨strB, strB, 0, 0, 180, 60⟩ ] ∧
      (parseWorkflow 800 cycJs abProcs).edges.map (fun e => (e.source, e.target)) =
        [ (strB, strA), (strA, strB) ] ∧
      layersOf cycSrc abProcs = [] := by
  exact ⟨by decide, by decide, by decide⟩

/-- C4: on `A(ch)`, `B(A.out)` the engine produces exactly the nodes
`A, B` and exactly the edge `A -> B`, with `B` in a strictly later layer
than `A`; on `A(ch)`, `B(A.out)`, `C(A.out, B.out)` node `C` is in a
strictly later layer than both `A` and `B`. -/
theorem c4_linear_chains :
    ((parseWorkflow 800 chainJs abProcs).nodes.map (fun n => n.id) = [ strA, strB ] ∧
      (parseWorkflow 800 chainJs abProcs).edges.map (fun e => (e.source, e.target)) =
        [ (strA, strB) ] ∧
      laterLayer (layersOf chainSrc abProcs) strA strB) ∧
    (laterLayer (layersOf chain3Src abcProcs) strA strC ∧
      laterLayer (layersOf chain3Src abcProcs) strB strC) :=
  ⟨⟨by decide, by decide, ⟨0, 1, by decide, by decide, by decide⟩⟩,
    ⟨0, 2, by decide, by decide, by decide⟩,
    ⟨1, 2, by decide, by decide, by decide⟩⟩

/-- C2 amended: the engine is a pure function of the canvas-size value it
reads; whenever the canvas width recomputed by a render equals the width
that render used, the next render of the same inputs returns a
bit-identical result. -/
theorem c2_width_stable_determinism (cs : CanvasSize) (src : JsValue)
    (procs : List NextflowProcess)
    (h : (renderOnce cs src procs).2.width = cs.width) :
    (renderOnce (renderOnce cs src procs).2 src procs).1 = (renderOnce cs src procs).1 := by
  show parseWorkflow (renderOnce cs src procs).2.width src procs =
    parseWorkflow cs.width src procs
  rw [h]

/-- Witness for the amended C2, at the two-node chain (whose layout fits
the initial 800-wide canvas, so the recomputed width is unchanged and the
second render is bit-identical). -/
theorem c2_width_stable_determinism_witness :
    (renderOnce initialCanvas chainJs abProcs).2.width = initialCanvas.width ∧
      (renderOnce (renderOnce initialCanvas chainJs abProcs).2 chainJs abProcs).1 =
        (renderOnce initialCanvas chainJs abProcs).1 := by
  have hL : layersOf chainSrc abProcs = [ [ strA ], [ strB ] ] := by decide
  have hN : (buildStOf chainSrc abProcs).nodes =
      [ ⟨strA, strA, 0, 0, 180, 60⟩, ⟨strB, strB, 0, 0, 180, 60⟩ ] := by decide
  have hnodes : (renderOnce initialCanvas chainJs abProcs).1.nodes =
      [ ⟨strA, strA, 310, 100, 180, 60⟩, ⟨strB, strB, 310, 260, 180, 60⟩ ] := by
    show (parseWorkflowStr 800 chainSrc abProcs).nodes = _
    simp only [parseWorkflowStr, positionsOf, hL, hN]
    norm_num [placeLayers, placeRow, hasNodeId, setEntry, applyPositions, getEntry,
      NODE_WIDTH, NODE_HEIGHT, X_SPACING, Y_SPACING, strA, strB]
    decide
  have hw : (renderOnce initialCanvas chainJs abProcs).2.width = initialCanvas.width := by
    show (⟨max 800 ((boundsMax (renderOnce initialCanvas chainJs abProcs).1.nodes).1 +
        X_SPACING * 2),
      max 600 ((boundsMax (renderOnce initialCanvas chainJs abProcs).1.nodes).2 +
        Y_SPACING * 2)⟩ : CanvasSize).width = initialCanvas.width
    rw [hnodes]
    norm_num [boundsMax, X_SPACING, initialCanvas]
  exact ⟨hw, c2_width_stable_determinism initialCanvas chainJs abProcs hw⟩

/-- Counterexample to C2 as stated: on three independent roots the first
render widens the shared canvas-size value from 800 to 940, and the second
render of the identical inputs re-centers the layer, shifting every node's
x coordinate (80/340/600 becomes 120/380/640) — the two runs are not
bit-identical. -/
theorem c2_counterexample :
    (renderOnce (renderOnce initialCanvas threeJs abcProcs).2 threeJs abcProcs).1 ≠
      (renderOnce initialCanvas threeJs abcProcs).1 := by
  have hL : layersOf threeSrc abcProcs = [ [ strA, strB, strC ] ] := by decide
  have hN : (buildStOf threeSrc abcProcs).nodes =
      [ ⟨strA, strA, 0, 0, 180, 60⟩, ⟨strB, strB, 0, 0, 180, 60⟩,
        ⟨strC, strC, 0, 0, 180, 60⟩ ] := by decide
  have hnodes : (renderOnce initialCanvas threeJs abcProcs).1.nodes =
      [ ⟨strA, strA, 80, 100, 180, 60⟩, ⟨strB, strB, 340, 100, 180, 60⟩,
        ⟨strC, strC, 600, 100, 180, 60⟩ ] := by
    show (parseWorkflowStr 800 threeSrc abcProcs).nodes = _
    simp only [parseWorkflowStr, positionsOf, hL, hN]
    norm_num [placeLayers, placeRow, hasNodeId, setEntry, applyPositions, getEntry,
      NODE_WIDTH, NODE_HEIGHT, X_SPACING, Y_SPACING, strA, strB, strC]
    decide
  have h1 : (renderOnce initialCanvas threeJs abcProcs).1.nodes.map (fun n => n.x) =
      [ 80, 340, 600 ] := by
    rw [hnodes]
    norm_num
  have hw : (renderOnce initialCanvas threeJs abcProcs).2.width = 940 := by
    show (⟨max 800 ((boundsMax (renderOnce initialCanvas threeJs abcProcs).1.nodes).1 +
        X_SPACING * 2),
      max 600 ((boundsMax (renderOnce initialCanvas threeJs abcProcs).1.nodes).2 +
        Y_SPACING * 2)⟩ : CanvasSize).width = 940
    rw [hnodes]
    norm_num [boundsMax, X_SPACING]
  have h2 : (renderOnce (renderOnce initialCanvas threeJs abcProcs).2 threeJs
      abcProcs).1.nodes.map (fun n => n.x) = [ 120, 380, 640 ] := by
    show ((parseWorkflowStr (renderOnce initialCanvas threeJs abcProcs).2.width threeSrc
      abcProcs).nodes.map (fun n => n.x)) = _
    rw [hw]
    simp only [parseWorkflowStr, positionsOf, hL, hN]
    norm_num [placeLayers, placeRow, hasNodeId, setEntry, applyPositions, getEntry,
      NODE_WIDTH, NODE_HEIGHT, X_SPACING, Y_SPACING, strA, strB, strC]
    decide
  intro h
  rw [h, h1] at h2
  exact absurd h2 (by norm_num)

/-!  Association-list helper lemmas.  -/

theorem getEntry_setEntry_self {α : Type} (k : String) (v : α) :
    ∀ m, getEntry k (setEntry k v m) = some v
  | [] => by simp [getEntry, setEntry]
  | (k', v') :: rest => by
    by_cases h : k' = k
    · simp [getEntry, setEntry, h]
    · simp only [setEntry, if_neg h, getEntry, if_neg h]
      exact getEntry_setEntry_self k v rest

theorem getEntry_setEntry_ne {α : Type} (k k' : String) (v : α) (h : k ≠ k') :
    ∀ m, getEntry k' (setEntry k v m) = getEntry k' m
  | [] => by simp [getEntry, setEntry, h]
  | (k'', v'') :: rest => by
    by_cases h2 : k'' = k
    · subst h2
      simp [getEntry, setEntry, h]
    · simp only [setEntry, if_neg h2, getEntry]
      by_cases h3 : k'' = k'
      · simp [h3]
      · simp only [if_neg h3]
        exact getEntry_setEntry_ne k k' v h rest

/-!  Termination measure of the layering loop.  -/

theorem degSumPos_setEntry (k : String) (x : Int) :
    ∀ m, degSumPos (setEntry k x m) + ((getEntry k m).getD 0).toNat =
      degSumPos m + x.toNat
  | [] => by simp [setEntry, getEntry, degSumPos]
  | (k', v) :: rest => by
    by_cases h : k' = k
    · subst h
      simp [setEntry, getEntry, degSumPos]
      omega
    · simp only [setEntry, if_neg h, getEntry, degSumPos, List.map_cons, List.sum_cons]
      have := degSumPos_setEntry k x rest
      simp only [degSumPos] at this
      omega

theorem decSucc_measure (p : List (String × Int) × List String) (v : String) :
    (decSucc p v).2.length + degSumPos (decSucc p v).1 ≤ p.2.length + degSumPos p.1 := by
  simp only [decSucc]
  have hs := degSumPos_setEntry v ((getEntry v p.1).getD 0 - 1) p.1
  by_cases h : (getEntry v p.1).getD 0 - 1 = 0
  · rw [if_pos h]
    simp only [List.length_append, List.length_singleton]
    omega
  · rw [if_neg h]
    omega

theorem foldl_decSucc_measure :
    ∀ (vs : List String) (p : List (String × Int) × List String),
      (vs.foldl decSucc p).2.length + degSumPos (vs.foldl decSucc p).1 ≤
        p.2.length + degSumPos p.1
  | [], _ => le_refl _
  | v :: rest, p =>
    le_trans (foldl_decSucc_measure rest (decSucc p v)) (decSucc_measure p v)

theorem processWave_measure (G : List (String × List String)) :
    ∀ (wave : List String) (deg : List (String × Int)),
      (processWave G wave deg).2.1.length + degSumPos (processWave G wave deg).2.2 ≤
        degSumPos deg
  | [], _ => by simp [processWave]
  | u :: rest, deg => by
    unfold processWave
    by_cases h : u = ""
    · rw [if_pos h]
      exact processWave_measure G rest deg
    · rw [if_neg h]
      have h1 := foldl_decSucc_measure (gSucc G u) (deg, [])
      have h2 := processWave_measure G rest ((gSucc G u).foldl decSucc (deg, [])).1
      simp only [List.length_append, List.length_nil] at h1 ⊢
      omega

/-!  The per-node decrement fold: value and enqueue characterisation.  -/

theorem foldl_decSucc_spec :
    ∀ (vs : List String) (deg : List (String × Int)) (enq : List String), vs.Nodup →
      (∀ t, ((getEntry t (vs.foldl decSucc (deg, enq)).1).getD 0 : ℤ) =
        ((getEntry t deg).getD 0 : ℤ) - (if t ∈ vs then 1 else 0)) ∧
      (vs.foldl decSucc (deg, enq)).2 =
        enq ++ vs.filter (fun v => decide (((getEntry v deg).getD 0 : ℤ) = 1))
  | [], deg, enq, _ => by simp
  | v :: rest, deg, enq, hnd => by
    have hvr : v ∉ rest := (List.nodup_cons.mp hnd).1
    have hrest : rest.Nodup := (List.nodup_cons.mp hnd).2
    have hfold : (v :: rest).foldl decSucc (deg, enq) =
        rest.foldl decSucc (decSucc (deg, enq) v) := rfl
    have hdec : decSucc (deg, enq) v =
        (setEntry v ((getEntry v deg).getD 0 - 1) deg,
          if (getEntry v deg).getD 0 - 1 = 0 then enq ++ [v] else enq) := rfl
    obtain ⟨ih1, ih2⟩ := foldl_decSucc_spec rest
      (setEntry v ((getEntry v deg).getD 0 - 1) deg)
      (if (getEntry v deg).getD 0 - 1 = 0 then enq ++ [v] else enq) hrest
    constructor
    · intro t
      rw [hfold, hdec, ih1 t]
      by_cases ht : t = v
      · subst ht
        rw [getEntry_setEntry_self]
        simp only [Option.getD_some, if_neg hvr, List.mem_cons, true_or, if_pos]
        omega
      · rw [getEntry_setEntry_ne v t _ (fun hc => ht hc.symm)]
        by_cases hr : t ∈ rest
        · simp [hr, List.mem_cons, ht]
        · simp [hr, List.mem_cons, ht]
    · rw [hfold, hdec, ih2]
      have hfeq : rest.filter
          (fun v' => decide (((getEntry v' (setEntry v ((getEntry v deg).getD 0 - 1)
            deg)).getD 0 : ℤ) = 1)) =
          rest.filter (fun v' => decide (((getEntry v' deg).getD 0 : ℤ) = 1)) := by
        apply List.filter_congr
        intro x hx
        have hxv : x ≠ v := fun hc => hvr (hc ▸ hx)
        rw [getEntry_setEntry_ne v x _ (fun hc => hxv hc.symm)]
      rw [hfeq]
      by_cases hv1 : ((getEntry v deg).getD 0 : ℤ) = 1
      · have : (getEntry v deg).getD 0 - 1 = 0 := by omega
        rw [if_pos this, List.filter_cons_of_pos (by simpa using hv1), List.append_assoc]
        rfl
      · have : ¬((getEntry v deg).getD 0 - 1 = 0) := by omega
        rw [if_neg this, List.filter_cons_of_neg (by simpa using hv1)]

/-!  The enqueue-closure argument: a node whose tracked in-degree reaches
zero has all of its edge sources already placed.  -/

theorem closure_of_deg_zero {G : List (String × List String)} {E : List VisEdge}
    {nodeIds : List String} (hrel : GraphRel G E nodeIds)
    {pl : List String} (hpl : pl.Nodup)
    {deg : List (String × Int)}
    (hcount : ∀ t, ((getEntry t deg).getD 0 : ℤ) =
      ((E.filter (fun e => e.target = t)).length : ℤ) -
        ((pl.filter (fun u => t ∈ gSucc G u)).length : ℤ))
    {v : String} (hv : ((getEntry v deg).getD 0 : ℤ) = 0) :
    ∀ e ∈ E, e.target = v → e.source ∈ pl := by
  by_contra hc
  push_neg at hc
  obtain ⟨e₀, he₀, ht₀, hs₀⟩ := hc
  have he₀F : e₀ ∈ E.filter (fun e => e.target = v) :=
    List.mem_filter.mpr ⟨he₀, by simp [ht₀]⟩
  have hFpair : (E.filter (fun e => e.target = v)).Pairwise
      (fun e₁ e₂ => ¬(e₁.source = e₂.source ∧ e₁.target = e₂.target)) :=
    hrel.2.1.sublist (List.filter_sublist E)
  have htgt : ∀ a ∈ E.filter (fun e => e.target = v), a.target = v := by
    intro a ha
    simpa using (List.mem_filter.mp ha).2
  have hFsrc : ((E.filter (fun e => e.target = v)).map (fun e => e.source)).Nodup := by
    refine List.pairwise_map.mpr (hFpair.imp_of_mem ?_)
    intro a b ha hb hab hsrceq
    exact hab ⟨hsrceq, (htgt a ha).trans (htgt b hb).symm⟩
  have hAnd : (pl.filter (fun u => v ∈ gSucc G u)).Nodup := hpl.filter _
  have hsub : ∀ u ∈ pl.filter (fun u => v ∈ gSucc G u),
      u ∈ (E.filter (fun e => e.target = v)).map (fun e => e.source) := by
    intro u hu
    have hmem := List.mem_filter.mp hu
    have hgs : v ∈ gSucc G u := by simpa using hmem.2
    cases hgE : getEntry u G with
    | none =>
      rw [gSucc, hgE] at hgs
      simp at hgs
    | some l =>
      rw [gSucc, hgE] at hgs
      simp only [Option.getD_some] at hgs
      obtain ⟨e, heE, hes, het⟩ := (hrel.1 u l hgE).2 v hgs
      exact List.mem_map.mpr ⟨e, List.mem_filter.mpr ⟨heE, by simp [het]⟩, hes⟩
  have hsubF : (pl.filter (fun u => v ∈ gSucc G u)).toFinset ⊆
      ((E.filter (fun e => e.target = v)).map (fun e => e.source)).toFinset := by
    intro x hx
    exact List.mem_toFinset.mpr (hsub x (List.mem_toFinset.mp hx))
  have hmemS : e₀.source ∈
      ((E.filter (fun e => e.target = v)).map (fun e => e.source)).toFinset :=
    List.mem_toFinset.mpr (List.mem_map.mpr ⟨e₀, he₀F, rfl⟩)
  have hnotS : e₀.source ∉ (pl.filter (fun u => v ∈ gSucc G u)).toFinset := by
    intro hx
    exact hs₀ (List.mem_filter.mp (List.mem_toFinset.mp hx)).1
  have hlt : (pl.filter (fun u => v ∈ gSucc G u)).toFinset.card <
      ((E.filter (fun e => e.target = v)).map (fun e => e.source)).toFinset.card :=
    Finset.card_lt_card
      ((Finset.ssubset_iff_of_subset hsubF).mpr ⟨e₀.source, hmemS, hnotS⟩)
  rw [List.toFinset_card_of_nodup hAnd, List.toFinset_card_of_nodup hFsrc,
    List.length_map] at hlt
  have hcv := hcount v
  rw [hv] at hcv
  omega

/-!  One wave of the layering loop preserves the invariant.  -/

theorem processWave_inv {G : List (String × List String)} {E : List VisEdge}
    {nodeIds : List String} (hrel : GraphRel G E nodeIds) :
    ∀ (wave pl pend : List String) (deg : List (String × Int)),
      KahnInv G E nodeIds pl (wave ++ pend) deg →
      (processWave G wave deg).1 = wave ∧
        KahnInv G E nodeIds (pl ++ wave) (pend ++ (processWave G wave deg).2.1)
          (processWave G wave deg).2.2
  | [], pl, pend, deg, hinv => by
    refine ⟨rfl, ?_⟩
    simpa [processWave] using hinv
  | u :: rest, pl, pend, deg, hinv => by
    obtain ⟨i1, i2, i3, i4, i5, i6, i7, i8⟩ := hinv
    have humem : u ∈ (u :: rest) ++ pend := by simp
    have hu_nid : u ∈ nodeIds := i4 u humem
    have hu_ne : u ≠ "" := fun hc => hrel.2.2.2 (hc ▸ hu_nid)
    have hu_fresh : u ∉ rest ++ pend := by
      have := i2
      rw [List.cons_append, List.nodup_cons] at this
      exact this.1
    have hrp_nd : (rest ++ pend).Nodup := by
      have := i2
      rw [List.cons_append, List.nodup_cons] at this
      exact this.2
    have hsuccs_nd : (gSucc G u).Nodup := by
      cases hgE : getEntry u G with
      | none =>
        rw [gSucc, hgE]
        exact List.nodup_nil
      | some l =>
        rw [gSucc, hgE]
        exact (hrel.1 u l hgE).1
    obtain ⟨spec1, spec2⟩ := foldl_decSucc_spec (gSucc G u) deg [] hsuccs_nd
    rw [List.nil_append] at spec2
    have henq_mem : ∀ v ∈ ((gSucc G u).foldl decSucc (deg, [])).2,
        v ∈ gSucc G u ∧ ((getEntry v deg).getD 0 : ℤ) = 1 := by
      intro v hv
      rw [spec2] at hv
      have := List.mem_filter.mp hv
      exact ⟨this.1, by simpa using this.2⟩
    have henq_nd : ((gSucc G u).foldl decSucc (deg, [])).2.Nodup := by
      rw [spec2]
      exact hsuccs_nd.filter _
    have hsucc_nid : ∀ v ∈ gSucc G u, v ∈ nodeIds := by
      intro v hvs
      cases hgE : getEntry u G with
      | none =>
        rw [gSucc, hgE] at hvs
        simp at hvs
      | some l =>
        rw [gSucc, hgE] at hvs
        simp only [Option.getD_some] at hvs
        obtain ⟨e, heE, _, het⟩ := (hrel.1 u l hgE).2 v hvs
        exact het ▸ hrel.2.2.1 e heE
    have henq_fresh : ∀ v ∈ ((gSucc G u).foldl decSucc (deg, [])).2,
        v ∉ pl ∧ v ∉ (u :: rest) ++ pend := by
      intro v hv
      have h1 := (henq_mem v hv).2
      constructor
      · intro hc
        have := i8 v (Or.inl hc)
        omega
      · intro hc
        have := i8 v (Or.inr hc)
        omega
    have hcount' : ∀ t, ((getEntry t ((gSucc G u).foldl decSucc (deg, [])).1).getD 0 : ℤ) =
        ((E.filter (fun e => e.target = t)).length : ℤ) -
          (((pl ++ [u]).filter (fun w => t ∈ gSucc G w)).length : ℤ) := by
      intro t
      rw [spec1 t, i6 t, List.filter_append, List.length_append]
      by_cases hts : t ∈ gSucc G u
      · rw [if_pos hts]
        have heq : List.filter (fun w => decide (t ∈ gSucc G w)) [u] = [u] := by
          simp [List.filter_cons, hts]
        rw [heq]
        simp only [List.length_singleton]
        push_cast
        ring
      · rw [if_neg hts]
        have heq : List.filter (fun w => decide (t ∈ gSucc G w)) [u] = [] := by
          simp [List.filter_cons, hts]
        rw [heq]
        simp only [List.length_nil]
        push_cast
        ring
    have hplu_nd : (pl ++ [u]).Nodup := by
      refine List.Nodup.append i1 (List.nodup_singleton u) ?_
      intro a ha hb
      rcases List.mem_singleton.mp hb with rfl
      exact i3 a humem ha
    have henq_closure : ∀ v ∈ ((gSucc G u).foldl decSucc (deg, [])).2,
        ∀ e ∈ E, e.target = v → e.source ∈ pl ++ [u] := by
      intro v hv
      refine closure_of_deg_zero hrel hplu_nd hcount' ?_
      rw [spec1 v, if_pos (henq_mem v hv).1]
      have := (henq_mem v hv).2
      omega
    have hnew : KahnInv G E nodeIds (pl ++ [u])
        (rest ++ (pend ++ ((gSucc G u).foldl decSucc (deg, [])).2))
        ((gSucc G u).foldl decSucc (deg, [])).1 := by
      refine ⟨hplu_nd, ?_, ?_, ?_, ?_, hcount', ?_, ?_⟩
      · rw [← List.append_assoc]
        refine List.Nodup.append hrp_nd henq_nd ?_
        intro a ha hb
        exact (henq_fresh a hb).2 (by
          rcases List.mem_append.mp ha with h | h
          · exact List.mem_append.mpr (Or.inl (List.mem_cons_of_mem u h))
          · exact List.mem_append.mpr (Or.inr h))
      · intro x hx
        rw [← List.append_assoc] at hx
        rcases List.mem_append.mp hx with hx1 | hx1
        · intro hc
          rcases List.mem_append.mp hc with hc1 | hc1
          · exact i3 x (by
              rcases List.mem_append.mp hx1 with h | h
              · exact List.mem_append.mpr (Or.inl (List.mem_cons_of_mem u h))
              · exact List.mem_append.mpr (Or.inr h)) hc1
          · rcases List.mem_singleton.mp hc1 with rfl
            exact hu_fresh hx1
        · intro hc
          rcases List.mem_append.mp hc with hc1 | hc1
          · exact (henq_fresh x hx1).1 hc1
          · rcases List.mem_singleton.mp hc1 with rfl
            exact (henq_fresh x hx1).2 humem
      · intro x hx
        rw [← List.append_assoc] at hx
        rcases List.mem_append.mp hx with hx1 | hx1
        · exact i4 x (by
            rcases List.mem_append.mp hx1 with h | h
            · exact List.mem_append.mpr (Or.inl (List.mem_cons_of_mem u h))
            · exact List.mem_append.mpr (Or.inr h))
        · exact hsucc_nid x (henq_mem x hx1).1
      · intro x hx
        rcases List.mem_append.mp hx with hx1 | hx1
        · exact i5 x hx1
        · rcases List.mem_singleton.mp hx1 with rfl
          exact hu_nid
      · intro v hv
        rcases hv with hv | hv
        · rcases List.mem_append.mp hv with hv1 | hv1
          · intro e he ht
            exact List.mem_append.mpr (Or.inl (i7 v (Or.inl hv1) e he ht))
          · rcases List.mem_singleton.mp hv1 with rfl
            intro e he ht
            exact List.mem_append.mpr (Or.inl (i7 v (Or.inr humem) e he ht))
        · rw [← List.append_assoc] at hv
          rcases List.mem_append.mp hv with hv1 | hv1
          · intro e he ht
            refine List.mem_append.mpr (Or.inl (i7 v ?_ e he ht))
            rcases List.mem_append.mp hv1 with h | h
            · exact Or.inr (List.mem_append.mpr (Or.inl (List.mem_cons_of_mem u h)))
            · exact Or.inr (List.mem_append.mpr (Or.inr h))
          · exact henq_closure v hv1
      · intro v hv
        rw [spec1 v]
        have hle : ((getEntry v ((gSucc G u).foldl decSucc (deg, [])).1).getD 0 : ℤ) ≤
            ((getEntry v deg).getD 0 : ℤ) := by
          rw [spec1 v]
          by_cases hvs : v ∈ gSucc G u
          · rw [if_pos hvs]
            omega
          · rw [if_neg hvs]
            omega
        rcases hv with hv | hv
        · rcases List.mem_append.mp hv with hv1 | hv1
          · have := i8 v (Or.inl hv1)
            rw [spec1 v] at hle
            omega
          · rcases List.mem_singleton.mp hv1 with rfl
            have := i8 v (Or.inr humem)
            rw [spec1 v] at hle
            omega
        · rw [← List.append_assoc] at hv
          rcases List.mem_append.mp hv with hv1 | hv1
          · have := i8 v (Or.inr (by
              rcases List.mem_append.mp hv1 with h | h
              · exact List.mem_append.mpr (Or.inl (List.mem_cons_of_mem u h))
              · exact List.mem_append.mpr (Or.inr h)))
            rw [spec1 v] at hle
            omega
          · have h1 := (henq_mem v hv1).2
            rw [if_pos (henq_mem v hv1).1]
            omega
    obtain ⟨ih1, ih2⟩ := processWave_inv hrel rest (pl ++ [u])
      (pend ++ ((gSucc G u).foldl decSucc (deg, [])).2)
      ((gSucc G u).foldl decSucc (deg, [])).1 hnew
    have hw : processWave G (u :: rest) deg =
        ((u :: (processWave G rest ((gSucc G u).foldl decSucc (deg, [])).1).1),
          ((gSucc G u).foldl decSucc (deg, [])).2 ++
            (processWave G rest ((gSucc G u).foldl decSucc (deg, [])).1).2.1,
          (processWave G rest ((gSucc G u).foldl decSucc (deg, [])).1).2.2) := by
      simp only [processWave, if_neg hu_ne]
    rw [hw]
    refine ⟨by rw [ih1], ?_⟩
    have hA : pl ++ u :: rest = (pl ++ [u]) ++ rest := by
      simp
    have hB : pend ++ (((gSucc G u).foldl decSucc (deg, [])).2 ++
        (processWave G rest ((gSucc G u).foldl decSucc (deg, [])).1).2.1) =
        (pend ++ ((gSucc G u).foldl decSucc (deg, [])).2) ++
          (processWave G rest ((gSucc G u).foldl decSucc (deg, [])).1).2.1 := by
      simp
    rw [hA, hB]
    exact ih2

/-!  Node identity (claim C5) infrastructure.  -/

theorem hasNodeId_iff (nodes : List VisNode) (nm : String) :
    hasNodeId nodes nm = true ↔ nm ∈ nodes.map (fun n => n.id) := by
  simp only [hasNodeId, List.any_eq_true, decide_eq_true_eq, List.mem_map]

theorem addNode_ids_mem (st : BuildSt) (inst : CalledInstance) (s : String) :
    s ∈ (addNode st inst).nodes.map (fun n => n.id) ↔
      s ∈ st.nodes.map (fun n => n.id) ∨ s = inst.name := by
  unfold addNode
  by_cases h : hasNodeId st.nodes inst.name
  · rw [if_pos h]
    rw [hasNodeId_iff] at h
    constructor
    · exact Or.inl
    · rintro (hs | rfl)
      · exact hs
      · exact h
  · rw [if_neg h]
    simp

theorem addNode_ids_nodup (st : BuildSt) (inst : CalledInstance)
    (h : (st.nodes.map (fun n => n.id)).Nodup) :
    ((addNode st inst).nodes.map (fun n => n.id)).Nodup := by
  unfold addNode
  by_cases hh : hasNodeId st.nodes inst.name
  · rwa [if_pos hh]
  · rw [if_neg hh]
    have : inst.name ∉ st.nodes.map (fun n => n.id) := fun hc =>
      hh ((hasNodeId_iff st.nodes inst.name).mpr hc)
    simp [List.nodup_append, h, this]

theorem buildNodes_ids_mem :
    ∀ (insts : List CalledInstance) (st : BuildSt) (s : String),
      s ∈ (buildNodes insts st).nodes.map (fun n => n.id) ↔
        s ∈ st.nodes.map (fun n => n.id) ∨ s ∈ insts.map (fun c => c.name)
  | [], st, s => by simp [buildNodes]
  | inst :: rest, st, s => by
    show s ∈ (buildNodes rest (addNode st inst)).nodes.map (fun n => n.id) ↔ _
    rw [buildNodes_ids_mem rest (addNode st inst) s, addNode_ids_mem]
    simp only [List.map_cons, List.mem_cons]
    tauto

theorem buildNodes_ids_nodup :
    ∀ (insts : List CalledInstance) (st : BuildSt),
      (st.nodes.map (fun n => n.id)).Nodup →
      ((buildNodes insts st).nodes.map (fun n => n.id)).Nodup
  | [], _, h => h
  | inst :: rest, st, h =>
    buildNodes_ids_nodup rest (addNode st inst) (addNode_ids_nodup st inst h)

theorem applyPositions_ids (pos : List (String × ℚ × ℚ)) (nodes : List VisNode) :
    (applyPositions pos nodes).map (fun n => n.id) = nodes.map (fun n => n.id) := by
  unfold applyPositions
  rw [List.map_map]
  apply List.map_congr_left
  intro n _
  show (match getEntry n.id pos with
    | some p => (⟨n.id, n.name, p.1, p.2, n.width, n.height⟩ : VisNode)
    | none => n).id = n.id
  cases getEntry n.id pos <;> rfl

/-!  Scanner token properties, and edge-id injectivity (claims C6, C9).  -/

theorem length_pos_of_head?_eq {α : Type} {l : List α} {c : α}
    (h : l.head? = some c) : 1 ≤ l.length := by
  cases l with
  | nil => exact absurd h (by simp)
  | cons a t => simp

theorem length_takeWhile_add_dropWhile (p : Char → Bool) (l : List Char) :
    (l.takeWhile p).length + (l.dropWhile p).length = l.length := by
  conv_rhs => rw [← List.takeWhile_append_dropWhile p l]
  rw [List.length_append]

theorem matchCallAt_some {l : List Char} {rc : RawCall} {r : List Char}
    (h : matchCallAt l = some (rc, r)) :
    rc.name ≠ [] ∧ (∀ c ∈ rc.name, isWordChar c = true) ∧
      (∀ c ∈ rc.args, notClose c = true) ∧ r.length < l.length := by
  simp only [matchCallAt] at h
  by_cases hname : l.takeWhile isWordChar = []
  · rw [if_pos hname] at h
    exact absurd h (by simp)
  · rw [if_neg hname] at h
    by_cases hp : ((l.dropWhile isWordChar).dropWhile isSpaceChar).head? = some '('
    · rw [if_pos hp] at h
      by_cases hq : (((l.dropWhile isWordChar).dropWhile
          isSpaceChar).tail.dropWhile notClose).head? = some ')'
      · rw [if_pos hq] at h
        simp only [Option.some.injEq, Prod.mk.injEq] at h
        obtain ⟨h1, h2⟩ := h
        subst h1
        subst h2
        refine ⟨hname, fun c hc => List.mem_takeWhile_imp hc,
          fun c hc => List.mem_takeWhile_imp hc, ?_⟩
        have e1 := length_takeWhile_add_dropWhile isWordChar l
        have e2 := length_takeWhile_add_dropWhile isSpaceChar (l.dropWhile isWordChar)
        have e3 := length_pos_of_head?_eq hp
        have e4 : ((l.dropWhile isWordChar).dropWhile isSpaceChar).tail.length =
            ((l.dropWhile isWordChar).dropWhile isSpaceChar).length - 1 :=
          List.length_tail _
        have e5 : (((l.dropWhile isWordChar).dropWhile
            isSpaceChar).tail.dropWhile notClose).length ≤
            ((l.dropWhile isWordChar).dropWhile isSpaceChar).tail.length :=
          (List.dropWhile_sublist notClose).length_le
        have e6 := length_pos_of_head?_eq hq
        have e7 : (((l.dropWhile isWordChar).dropWhile
            isSpaceChar).tail.dropWhile notClose).tail.length =
            (((l.dropWhile isWordChar).dropWhile
              isSpaceChar).tail.dropWhile notClose).length - 1 :=
          List.length_tail _
        have e8 : (l.takeWhile isWordChar).length ≠ 0 := fun hc =>
          hname (List.length_eq_zero.mp hc)
        omega
      · rw [if_neg hq] at h
        exact absurd h (by simp)
    · rw [if_neg hp] at h
      exact absurd h (by simp)

theorem scanCallsAux_word :
    ∀ (fuel : Nat) (l : List Char) (rc : RawCall), rc ∈ scanCallsAux fuel l →
      rc.name ≠ [] ∧ (∀ c ∈ rc.name, isWordChar c = true) ∧
        (∀ c ∈ rc.args, notClose c = true)
  | 0, _, rc => by simp [scanCallsAux]
  | _ + 1, [], rc => by simp [scanCallsAux]
  | fuel + 1, c :: rest, rc => by
    intro hmem
    unfold scanCallsAux at hmem
    split at hmem
    · rename_i rc' r hm
      rcases List.mem_cons.mp hmem with rfl | hmem'
      · obtain ⟨h1, h2, h3, _⟩ := matchCallAt_some hm
        exact ⟨h1, h2, h3⟩
      · exact scanCallsAux_word fuel r rc hmem'
    · exact scanCallsAux_word fuel rest rc hmem

theorem matchOutRefAt_some {l : List Char} {nm r : List Char}
    (h : matchOutRefAt l = some (nm, r)) :
    nm ≠ [] ∧ (∀ c ∈ nm, isWordChar c = true) ∧ r.length < l.length := by
  simp only [matchOutRefAt] at h
  by_cases hname : l.takeWhile isWordChar = []
  · rw [if_pos hname] at h
    exact absurd h (by simp)
  · rw [if_neg hname] at h
    by_cases ht : (l.dropWhile isWordChar).take 4 = [ '.', 'o', 'u', 't' ]
    · rw [if_pos ht] at h
      have e1 := length_takeWhile_add_dropWhile isWordChar l
      have e8 : (l.takeWhile isWordChar).length ≠ 0 := fun hc =>
        hname (List.length_eq_zero.mp hc)
      have e4 : ((l.dropWhile isWordChar).take 4).length = 4 := by
        rw [ht]
        rfl
      have e5 : ((l.dropWhile isWordChar).take 4).length =
          min 4 (l.dropWhile isWordChar).length := List.length_take _ _
      have e6 : ((l.dropWhile isWordChar).drop 4).length =
          (l.dropWhile isWordChar).length - 4 := List.length_drop _ _
      by_cases hopt : ((l.dropWhile isWordChar).drop 4).head? = some '.' ∧
          ((l.dropWhile isWordChar).drop 4).tail.takeWhile isWordChar ≠ []
      · rw [if_pos hopt] at h
        simp only [Option.some.injEq, Prod.mk.injEq] at h
        obtain ⟨h1, h2⟩ := h
        subst h1
        subst h2
        refine ⟨hname, fun c hc => List.mem_takeWhile_imp hc, ?_⟩
        have e9 := length_pos_of_head?_eq hopt.1
        have e10 : ((l.dropWhile isWordChar).drop 4).tail.length =
            ((l.dropWhile isWordChar).drop 4).length - 1 := List.length_tail _
        have e11 : (((l.dropWhile isWordChar).drop 4).tail.dropWhile isWordChar).length ≤
            ((l.dropWhile isWordChar).drop 4).tail.length :=
          (List.dropWhile_sublist isWordChar).length_le
        omega
      · rw [if_neg hopt] at h
        simp only [Option.some.injEq, Prod.mk.injEq] at h
        obtain ⟨h1, h2⟩ := h
        subst h1
        subst h2
        refine ⟨hname, fun c hc => List.mem_takeWhile_imp hc, ?_⟩
        omega
    · rw [if_neg ht] at h
      exact absurd h (by simp)

theorem scanOutRefsAux_word :
    ∀ (fuel : Nat) (l : List Char) (nm : List Char), nm ∈ scanOutRefsAux fuel l →
      nm ≠ [] ∧ (∀ c ∈ nm, isWordChar c = true)
  | 0, _, nm => by simp [scanOutRefsAux]
  | _ + 1, [], nm => by simp [scanOutRefsAux]
  | fuel + 1, c :: rest, nm => by
    intro hmem
    unfold scanOutRefsAux at hmem
    split at hmem
    · rename_i nm' r hm
      rcases List.mem_cons.mp hmem with rfl | hmem'
      · obtain ⟨h1, h2, _⟩ := matchOutRefAt_some hm
        exact ⟨h1, h2⟩
      · exact scanOutRefsAux_word fuel r nm hmem'
    · exact scanOutRefsAux_word fuel rest nm hmem

theorem scanOutRefs_word (s : String) (nm : String) (h : nm ∈ scanOutRefs s) :
    ∀ c ∈ nm.data, isWordChar c = true := by
  unfold scanOutRefs at h
  rcases List.mem_map.mp h with ⟨l, hl, rfl⟩
  have := (scanOutRefsAux_word _ _ _ hl).2
  exact this

theorem indexCalls_mem :
    ∀ (defined : List String) (l : List RawCall) (i : Nat) (c : CalledInstance),
      c ∈ indexCalls defined l i →
        c.name ∈ defined ∧
          ∃ rc ∈ l, rc.name.asString = c.name ∧ rc.args.asString = c.inputs
  | _, [], _, c => by simp [indexCalls]
  | defined, rc :: rest, i, c => by
    intro hc
    unfold indexCalls at hc
    by_cases h : rc.name.asString ∈ defined
    · rw [if_pos h] at hc
      rcases List.mem_cons.mp hc with rfl | hc'
      · exact ⟨h, rc, List.mem_cons_self rc rest, rfl, rfl⟩
      · obtain ⟨hd, rc', hrc', he⟩ := indexCalls_mem defined rest (i + 1) c hc'
        exact ⟨hd, rc', List.mem_cons_of_mem rc hrc', he⟩
    · rw [if_neg h] at hc
      obtain ⟨hd, rc', hrc', he⟩ := indexCalls_mem defined rest i c hc
      exact ⟨hd, rc', List.mem_cons_of_mem rc hrc', he⟩

theorem calledProcessInstances_mem {src : String} {procs : List NextflowProcess}
    {c : CalledInstance} (h : c ∈ calledProcessInstances src procs) :
    c.name ∈ definedNames procs ∧ c.name.data ≠ [] ∧
      (∀ ch ∈ c.name.data, isWordChar ch = true) := by
  obtain ⟨hd, rc, hrc, hn, _⟩ := indexCalls_mem _ _ _ _ h
  obtain ⟨h1, h2, _⟩ := scanCallsAux_word _ _ _ hrc
  refine ⟨hd, ?_, ?_⟩
  · rw [← hn]
    exact h1
  · rw [← hn]
    exact h2

theorem hasEdgeId_iff (edges : List VisEdge) (eid : String) :
    hasEdgeId edges eid = true ↔ ∃ e ∈ edges, e.id = eid := by
  simp only [hasEdgeId, List.any_eq_true, decide_eq_true_eq]

theorem edgeListInv_nil (defined nodeIds : List String) : EdgeListInv defined nodeIds [] := by
  constructor
  · exact List.Pairwise.nil
  · simp

theorem addEdge_inv (defined nodeIds : List String) (target : String) (st : EdgeSt)
    (source : String)
    (hT : target ∈ defined) (hTn : target ∈ nodeIds)
    (hTw : ∀ ch ∈ target.data, isWordChar ch = true)
    (hSw : ∀ ch ∈ source.data, isWordChar ch = true)
    (hinv : EdgeListInv defined nodeIds st.edges) :
    EdgeListInv defined nodeIds (addEdge defined target st source).edges := by
  simp only [addEdge]
  by_cases hg : source ∈ defined ∧ source ≠ target
  · rw [if_pos hg]
    by_cases he : hasEdgeId st.edges (edgeId source target) = true
    · rw [if_pos he]
      exact hinv
    · rw [if_neg he]
      show EdgeListInv defined nodeIds (st.edges ++
        [⟨edgeId source target, source, target, 0, 0, 0, 0, 0, 0⟩])
      have hnot : ∀ a ∈ st.edges, ¬(a.source = source ∧ a.target = target) := by
        intro a ha hc
        apply he
        rw [hasEdgeId_iff]
        refine ⟨a, ha, ?_⟩
        rw [(hinv.2 a ha).1, hc.1, hc.2]
      constructor
      · rw [List.pairwise_append]
        refine ⟨hinv.1, List.pairwise_singleton _ _, ?_⟩
        intro a ha b hb
        rcases List.mem_singleton.mp hb with rfl
        exact hnot a ha
      · intro e hee
        rcases List.mem_append.mp hee with h1 | h1
        · exact hinv.2 e h1
        · rcases List.mem_singleton.mp h1 with rfl
          exact ⟨rfl, hg.2, hg.1, hT, hTn, hSw, hTw, rfl, rfl, rfl, rfl, rfl, rfl⟩
  · rw [if_neg hg]
    exact hinv

theorem foldl_addEdge_inv (defined nodeIds : List String) (target : String) :
    ∀ (srcs : List String) (st : EdgeSt),
      (∀ s ∈ srcs, ∀ ch ∈ s.data, isWordChar ch = true) →
      target ∈ defined → target ∈ nodeIds →
      (∀ ch ∈ target.data, isWordChar ch = true) →
      EdgeListInv defined nodeIds st.edges →
      EdgeListInv defined nodeIds ((srcs.foldl (addEdge defined target) st).edges)
  | [], st, _, _, _, _, hinv => hinv
  | s :: rest, st, hw, hT, hTn, hTw, hinv => by
    show EdgeListInv defined nodeIds
      ((rest.foldl (addEdge defined target) (addEdge defined target st s)).edges)
    exact foldl_addEdge_inv defined nodeIds target rest _
      (fun x hx => hw x (List.mem_cons_of_mem _ hx)) hT hTn hTw
      (addEdge_inv defined nodeIds target st s hT hTn hTw
        (hw s (List.mem_cons_self _ _)) hinv)

theorem buildEdges_inv (defined nodeIds : List String) :
    ∀ (insts : List CalledInstance) (st : EdgeSt),
      (∀ c ∈ insts, c.name ∈ defined ∧ c.name ∈ nodeIds ∧
        ∀ ch ∈ c.name.data, isWordChar ch = true) →
      EdgeListInv defined nodeIds st.edges →
      EdgeListInv defined nodeIds ((buildEdges defined insts st).edges)
  | [], _, _, hinv => hinv
  | inst :: rest, st, hp, hinv => by
    show EdgeListInv defined nodeIds
      ((buildEdges defined rest (processInstEdges defined st inst)).edges)
    obtain ⟨h1, h2, h3⟩ := hp inst (List.mem_cons_self _ _)
    exact buildEdges_inv defined nodeIds rest _
      (fun c hc => hp c (List.mem_cons_of_mem _ hc))
      (foldl_addEdge_inv defined nodeIds inst.name _ st
        (fun s hs => scanOutRefs_word _ s hs) h1 h2 h3 hinv)

theorem edgeStOf_inv (src : String) (procs : List NextflowProcess) :
    EdgeListInv (definedNames procs) ((buildStOf src procs).nodes.map (fun n => n.id))
      (edgeStOf src procs).edges := by
  apply buildEdges_inv
  · intro c hc
    obtain ⟨hd, _, hw⟩ := calledProcessInstances_mem hc
    refine ⟨hd, ?_, hw⟩
    unfold buildStOf
    rw [buildNodes_ids_mem]
    exact Or.inr (List.mem_map_of_mem _ hc)
  · exact edgeListInv_nil _ _

theorem edgeGeom_fields (nodes : List VisNode) (e : VisEdge) :
    (edgeGeom nodes e).id = e.id ∧ (edgeGeom nodes e).source = e.source ∧
      (edgeGeom nodes e).target = e.target := by
  unfold edgeGeom
  split
  · exact ⟨rfl, rfl, rfl⟩
  · exact ⟨rfl, rfl, rfl⟩

/-- C6: the returned edge set contains at most one edge per ordered
(source, target) pair, and never a self-loop. -/
theorem c6_edge_dedup_no_selfloop (W : ℚ) (src : String) (procs : List NextflowProcess) :
    (parseWorkflowStr W src procs).edges.Pairwise
        (fun e₁ e₂ => ¬(e₁.source = e₂.source ∧ e₁.target = e₂.target)) ∧
      ∀ e ∈ (parseWorkflowStr W src procs).edges, e.source ≠ e.target := by
  have hinv := edgeStOf_inv src procs
  have hedges : (parseWorkflowStr W src procs).edges =
      (edgeStOf src procs).edges.map
        (edgeGeom (applyPositions (positionsOf W src procs) (buildStOf src procs).nodes)) :=
    rfl
  constructor
  · rw [hedges, List.pairwise_map]
    apply hinv.1.imp
    intro a b hab hc
    apply hab
    rw [(edgeGeom_fields _ a).2.1, (edgeGeom_fields _ a).2.2,
      (edgeGeom_fields _ b).2.1, (edgeGeom_fields _ b).2.2] at hc
    exact hc
  · intro e he
    rw [hedges] at he
    rcases List.mem_map.mp he with ⟨e₀, he₀, rfl⟩
    rw [(edgeGeom_fields _ e₀).2.1, (edgeGeom_fields _ e₀).2.2]
    exact (hinv.2 e₀ he₀).2.1

/-- Witness for C6, at the dangling-source input `T(P.out)` (the recorded
edge has distinct endpoints). -/
theorem c6_witness :
    (⟨edgeId strP strT, strP, strT, 0, 0, 0, 0, 0, 0⟩ : VisEdge) ∈
        (parseWorkflowStr 800 phantomSrc ptProcs).edges ∧
      strP ≠ strT := by
  refine ⟨by decide, ?_⟩
  exact (c6_edge_dedup_no_selfloop 800 phantomSrc ptProcs).2
    (⟨edgeId strP strT, strP, strT, 0, 0, 0, 0, 0, 0⟩ : VisEdge) (by decide)

/-- C9: a name outside the declared process list never produces a node or
an edge, and a source with zero recognized calls yields an empty graph. -/
theorem c9_undeclared_never (W : ℚ) (src : String) (procs : List NextflowProcess) :
    (∀ n ∈ (parseWorkflowStr W src procs).nodes, n.id ∈ definedNames procs) ∧
      (∀ e ∈ (parseWorkflowStr W src procs).edges,
        e.source ∈ definedNames procs ∧ e.target ∈ definedNames procs) ∧
      (calledProcessInstances src procs = [] →
        parseWorkflowStr W src procs = ⟨[], []⟩) := by
  refine ⟨?_, ?_, ?_⟩
  · intro n hn
    have hmem : n.id ∈ (parseWorkflowStr W src procs).nodes.map (fun n => n.id) :=
      List.mem_map_of_mem _ hn
    rw [show (parseWorkflowStr W src procs).nodes.map (fun n => n.id) =
        (buildStOf src procs).nodes.map (fun n => n.id) from applyPositions_ids _ _] at hmem
    rw [show buildStOf src procs =
        buildNodes (calledProcessInstances src procs) ⟨[], [], []⟩ from rfl,
      buildNodes_ids_mem] at hmem
    rcases hmem with hc | hc
    · exact absurd hc (by simp)
    · rcases List.mem_map.mp hc with ⟨c, hcm, hcn⟩
      rw [← hcn]
      exact (calledProcessInstances_mem hcm).1
  · intro e he
    have hinv := edgeStOf_inv src procs
    rw [show (parseWorkflowStr W src procs).edges =
        (edgeStOf src procs).edges.map
          (edgeGeom (applyPositions (positionsOf W src procs)
            (buildStOf src procs).nodes)) from rfl] at he
    rcases List.mem_map.mp he with ⟨e₀, he₀, rfl⟩
    rw [(edgeGeom_fields _ e₀).2.1, (edgeGeom_fields _ e₀).2.2]
    exact ⟨(hinv.2 e₀ he₀).2.2.1, (hinv.2 e₀ he₀).2.2.2.1⟩
  · intro h
    simp only [parseWorkflowStr, positionsOf, layersOf, queueOf, edgeStOf, buildStOf, h]
    rfl

/-- Witness for C9, at the input `Z(x)` with only `A` declared (zero
recognized calls, empty graph). -/
theorem c9_witness :
    calledProcessInstances undeclSrc aOnlyProcs = [] ∧
      parseWorkflowStr 800 undeclSrc aOnlyProcs = ⟨[], []⟩ := by
  have h : calledProcessInstances undeclSrc aOnlyProcs = [] := by decide
  exact ⟨h, (c9_undeclared_never 800 undeclSrc aOnlyProcs).2.2 h⟩

/-!  The scanner decomposition (claim C8).  -/

theorem head?_some_eq_cons {α : Type} {l : List α} {c : α} (h : l.head? = some c) :
    l = c :: l.tail := by
  cases l with
  | nil => exact absurd h (by simp)
  | cons a t =>
    simp only [List.head?_cons, Option.some.injEq] at h
    rw [h]
    rfl

theorem matchCallAt_decomp {l : List Char} {rc : RawCall} {r : List Char}
    (h : matchCallAt l = some (rc, r)) :
    l = rc.name ++ ((l.dropWhile isWordChar).takeWhile isSpaceChar ++
      '(' :: (rc.args ++ ')' :: r)) ∧
    ∀ c ∈ (l.dropWhile isWordChar).takeWhile isSpaceChar, isSpaceChar c = true := by
  simp only [matchCallAt] at h
  by_cases hname : l.takeWhile isWordChar = []
  · rw [if_pos hname] at h
    exact absurd h (by simp)
  · rw [if_neg hname] at h
    by_cases hp : ((l.dropWhile isWordChar).dropWhile isSpaceChar).head? = some '('
    · rw [if_pos hp] at h
      by_cases hq : (((l.dropWhile isWordChar).dropWhile
          isSpaceChar).tail.dropWhile notClose).head? = some ')'
      · rw [if_pos hq] at h
        simp only [Option.some.injEq, Prod.mk.injEq] at h
        obtain ⟨h1, h2⟩ := h
        subst h1
        subst h2
        refine ⟨?_, fun c hc => List.mem_takeWhile_imp hc⟩
        show l = l.takeWhile isWordChar ++ _
        conv_lhs => rw [← List.takeWhile_append_dropWhile isWordChar l]
        congr 1
        conv_lhs => rw [← List.takeWhile_append_dropWhile isSpaceChar
          (l.dropWhile isWordChar)]
        congr 1
        rw [head?_some_eq_cons hp]
        congr 1
        conv_lhs => rw [← List.takeWhile_append_dropWhile notClose
          ((l.dropWhile isWordChar).dropWhile isSpaceChar).tail]
        congr 1
        exact head?_some_eq_cons hq
      · rw [if_neg hq] at h
        exact absurd h (by simp)
    · rw [if_neg hp] at h
      exact absurd h (by simp)

theorem laysOut_cons (c : Char) (src : List Char) (L : List RawCall)
    (h : LaysOut src L) : LaysOut (c :: src) L := by
  cases L with
  | nil => trivial
  | cons rc rest =>
    obtain ⟨pre, ws, tail, h1, h2, h3, h4, h5, h6⟩ := h
    exact ⟨c :: pre, ws, tail, by rw [h1]; simp [List.cons_append, List.append_assoc],
      h2, h3, h4, h5, h6⟩

theorem scanCallsAux_laysOut :
    ∀ (fuel : Nat) (l : List Char), l.length < fuel → LaysOut l (scanCallsAux fuel l)
  | 0, _, h => absurd h (by omega)
  | _ + 1, [], _ => by simp [scanCallsAux, LaysOut]
  | fuel + 1, c :: rest, h => by
    unfold scanCallsAux
    split
    · rename_i rc r hm
      obtain ⟨hdec, hws⟩ := matchCallAt_decomp hm
      obtain ⟨hne, hword, hclose, hlen⟩ := matchCallAt_some hm
      have hr : r.length < fuel := by
        simp only [List.length_cons] at h hlen
        omega
      refine ⟨[], ((c :: rest).dropWhile isWordChar).takeWhile isSpaceChar, r,
        ?_, hws, hne, hword, hclose, scanCallsAux_laysOut fuel r hr⟩
      simpa [List.append_assoc] using hdec
    · have hr : rest.length < fuel := by
        simp only [List.length_cons] at h
        omega
      exact laysOut_cons c rest _ (scanCallsAux_laysOut fuel rest hr)

/-- C8: every scanned call occurs left to right in the source as its
identifier, whitespace, an opening paren, the verbatim (unprocessed)
argument substring — which contains no close-paren, i.e. the flat scan
truncates the argument text at the first close-paren — and the closing
paren; and every recognized call instance carries exactly the name and raw
argument text of one scanned call. -/
theorem c8_flat_scan (src : String) (procs : List NextflowProcess) :
    LaysOut src.data (scanCalls src) ∧
      ∀ inst ∈ calledProcessInstances src procs,
        ∃ rc ∈ scanCalls src,
          rc.name.asString = inst.name ∧ rc.args.asString = inst.inputs := by
  constructor
  · exact scanCallsAux_laysOut _ _ (Nat.lt_succ_self _)
  · intro inst hi
    exact (indexCalls_mem _ _ _ _ hi).2

/-- Witness for C8, at `A(f(x), y)`: the recognized call to `A` retains
exactly the raw argument text `f(x`, truncated at the first close-paren. -/
theorem c8_witness :
    (⟨strA, callIdA0, truncArgs⟩ : CalledInstance) ∈
        calledProcessInstances nestedSrc abProcs ∧
      ∃ rc ∈ scanCalls nestedSrc,
        rc.name.asString = strA ∧ rc.args.asString = truncArgs :=
  ⟨by decide, (c8_flat_scan nestedSrc abProcs).2 ⟨strA, callIdA0, truncArgs⟩ (by decide)⟩

/-- C5: the returned node set has pairwise distinct ids, and its ids are
exactly the process names occurring in at least one recognized call (so a
process called several times yields exactly one node). -/
theorem c5_node_identity (W : ℚ) (src : String) (procs : List NextflowProcess) :
    ((parseWorkflowStr W src procs).nodes.map (fun n => n.id)).Nodup ∧
      ∀ s, s ∈ (parseWorkflowStr W src procs).nodes.map (fun n => n.id) ↔
        s ∈ (calledProcessInstances src procs).map (fun c => c.name) := by
  have hids : (parseWorkflowStr W src procs).nodes.map (fun n => n.id) =
      (buildStOf src procs).nodes.map (fun n => n.id) := applyPositions_ids _ _
  constructor
  · rw [hids]
    exact buildNodes_ids_nodup _ _ (by simp)
  · intro s
    rw [hids]
    unfold buildStOf
    rw [buildNodes_ids_mem]
    simp

/-!  The fuelled layering loop: invariant consequences.  -/

theorem kahnLoop_inv {G : List (String × List String)} {E : List VisEdge}
    {nodeIds : List String} (hrel : GraphRel G E nodeIds) :
    ∀ (fuel : Nat) (q : List String) (deg : List (String × Int)) (pl : List String),
      KahnInv G E nodeIds pl q deg →
      q.length + degSumPos deg < fuel →
      ((pl ++ (kahnLoop G fuel q deg).flatten).Nodup ∧
        (∀ v ∈ (kahnLoop G fuel q deg).flatten, v ∈ nodeIds) ∧
        (∀ e ∈ E, e.target ∈ pl ++ (kahnLoop G fuel q deg).flatten →
          e.source ∈ pl ++ (kahnLoop G fuel q deg).flatten))
  | 0, _, _, _, _, hf => absurd hf (by omega)
  | fuel + 1, q, deg, pl, hinv, hf => by
    by_cases hq : q = []
    · subst hq
      have hkeq : kahnLoop G (fuel + 1) [] deg = [] := by
        simp [kahnLoop]
      rw [hkeq]
      simp only [List.flatten_nil, List.append_nil]
      obtain ⟨i1, -, -, -, -, -, i7, -⟩ := hinv
      exact ⟨i1, by simp, fun e he ht => i7 e.target (Or.inl ht) e he rfl⟩
    · have hinv' : KahnInv G E nodeIds pl (q ++ []) deg := by
        rwa [List.append_nil]
      obtain ⟨hw1, hw2⟩ := processWave_inv hrel q pl [] deg hinv'
      rw [List.nil_append] at hw2
      have hkeq : kahnLoop G (fuel + 1) q deg =
          (processWave G q deg).1 ::
            kahnLoop G fuel (processWave G q deg).2.1 (processWave G q deg).2.2 := by
        simp only [kahnLoop, if_neg hq]
      have hm := processWave_measure G q deg
      have hql : 1 ≤ q.length := by
        cases q with
        | nil => exact absurd rfl hq
        | cons a t => simp
      have hf' : (processWave G q deg).2.1.length +
          degSumPos (processWave G q deg).2.2 < fuel := by omega
      obtain ⟨c1, c2, c3⟩ := kahnLoop_inv hrel fuel (processWave G q deg).2.1
        (processWave G q deg).2.2 (pl ++ q) hw2 hf'
      rw [hkeq, List.flatten_cons, hw1]
      refine ⟨?_, ?_, ?_⟩
      · rw [← List.append_assoc]
        exact c1
      · intro v hv
        rcases List.mem_append.mp hv with h | h
        · exact hinv.2.2.2.1 v h
        · exact c2 v h
      · intro e he ht
        rw [← List.append_assoc] at ht ⊢
        exact c3 e he ht

/-!  Relations established by the build passes.  -/

theorem buildNodes_G_deg :
    ∀ (insts : List CalledInstance) (st : BuildSt),
      (∀ u l, getEntry u st.G = some l → l = []) →
      (∀ t v, getEntry t st.inDegree = some v → v = 0) →
      (∀ u l, getEntry u (buildNodes insts st).G = some l → l = []) ∧
        (∀ t v, getEntry t (buildNodes insts st).inDegree = some v → v = 0)
  | [], _, h1, h2 => ⟨h1, h2⟩
  | inst :: rest, st, h1, h2 => by
    refine buildNodes_G_deg rest (addNode st inst) ?_ ?_
    · intro u l hu
      unfold addNode at hu
      by_cases hh : hasNodeId st.nodes inst.name
      · rw [if_pos hh] at hu
        exact h1 u l hu
      · rw [if_neg hh] at hu
        simp only at hu
        by_cases he : inst.name = u
        · subst he
          rw [getEntry_setEntry_self] at hu
          cases hu
          rfl
        · rw [getEntry_setEntry_ne _ _ _ he] at hu
          exact h1 u l hu
    · intro t v ht
      unfold addNode at ht
      by_cases hh : hasNodeId st.nodes inst.name
      · rw [if_pos hh] at ht
        exact h2 t v ht
      · rw [if_neg hh] at ht
        simp only at ht
        by_cases he : inst.name = t
        · subst he
          rw [getEntry_setEntry_self] at ht
          cases ht
          rfl
        · rw [getEntry_setEntry_ne _ _ _ he] at ht
          exact h2 t v ht

theorem addEdge_G_deg (defined : List String) (target source : String) (st : EdgeSt)
    (hG : ∀ u l, getEntry u st.G = some l → l.Nodup ∧
      ∀ v ∈ l, ∃ e ∈ st.edges, e.source = u ∧ e.target = v)
    (hd : ∀ t, ((getEntry t st.inDegree).getD 0 : ℤ) =
      ((st.edges.filter (fun e => e.target = t)).length : ℤ)) :
    (∀ u l, getEntry u (addEdge defined target st source).G = some l → l.Nodup ∧
      ∀ v ∈ l, ∃ e ∈ (addEdge defined target st source).edges,
        e.source = u ∧ e.target = v) ∧
    (∀ t, ((getEntry t (addEdge defined target st source).inDegree).getD 0 : ℤ) =
      (((addEdge defined target st source).edges.filter
        (fun e => e.target = t)).length : ℤ)) := by
  simp only [addEdge]
  by_cases hg : source ∈ defined ∧ source ≠ target
  · rw [if_pos hg]
    by_cases he : hasEdgeId st.edges (edgeId source target) = true
    · rw [if_pos he]
      exact ⟨hG, hd⟩
    · rw [if_neg he]
      constructor
      · intro u l hu
        simp only at hu
        have hweak : ∀ v ∈ l, (∃ e ∈ st.edges, e.source = u ∧ e.target = v) →
            ∃ e ∈ st.edges ++ [⟨edgeId source target, source, target, 0, 0, 0, 0, 0, 0⟩],
              e.source = u ∧ e.target = v := by
          intro v _ ⟨e, heE, hp⟩
          exact ⟨e, List.mem_append_left _ heE, hp⟩
        cases hsrcG : getEntry source st.G with
        | none =>
          rw [hsrcG] at hu
          obtain ⟨hnd, hs⟩ := hG u l hu
          exact ⟨hnd, fun v hv => hweak v hv (hs v hv)⟩
        | some l₀ =>
          rw [hsrcG] at hu
          replace hu : getEntry u (if target ∈ l₀ then st.G
              else setEntry source (l₀ ++ [target]) st.G) = some l := hu
          by_cases htl : target ∈ l₀
          · rw [if_pos htl] at hu
            obtain ⟨hnd, hs⟩ := hG u l hu
            exact ⟨hnd, fun v hv => hweak v hv (hs v hv)⟩
          · rw [if_neg htl] at hu
            by_cases hus : source = u
            · subst hus
              rw [getEntry_setEntry_self] at hu
              obtain rfl : l₀ ++ [target] = l := by
                cases hu
                rfl
              obtain ⟨hnd₀, hs₀⟩ := hG source l₀ hsrcG
              constructor
              · refine List.Nodup.append hnd₀ (List.nodup_singleton _) ?_
                intro a ha hb
                rcases List.mem_singleton.mp hb with rfl
                exact htl ha
              · intro v hv
                rcases List.mem_append.mp hv with hv1 | hv1
                · exact hweak v hv (hs₀ v hv1)
                · have hveq := List.mem_singleton.mp hv1
                  exact ⟨⟨edgeId source target, source, target, 0, 0, 0, 0, 0, 0⟩,
                    List.mem_append_right _ (List.mem_singleton.mpr rfl), rfl, hveq.symm⟩
            · rw [getEntry_setEntry_ne _ _ _ hus] at hu
              obtain ⟨hnd, hs⟩ := hG u l hu
              exact ⟨hnd, fun v hv => hweak v hv (hs v hv)⟩
      · intro t
        simp only
        rw [List.filter_append, List.length_append]
        by_cases htt : target = t
        · subst htt
          rw [getEntry_setEntry_self]
          have hone : List.filter (fun e => decide (e.target = target))
              [(⟨edgeId source target, source, target, 0, 0, 0, 0, 0, 0⟩ : VisEdge)] =
              [⟨edgeId source target, source, target, 0, 0, 0, 0, 0, 0⟩] := by
            simp
          rw [hone]
          have := hd target
          simp only [Option.getD_some, List.length_singleton]
          push_cast
          omega
        · rw [getEntry_setEntry_ne _ _ _ htt]
          have hzero : List.filter (fun e => decide (e.target = t))
              [(⟨edgeId source target, source, target, 0, 0, 0, 0, 0, 0⟩ : VisEdge)] =
              [] := by
            simp [htt]
          rw [hzero]
          have := hd t
          simp only [List.length_nil]
          push_cast
          omega
  · rw [if_neg hg]
    exact ⟨hG, hd⟩

theorem foldl_addEdge_G_deg (defined : List String) (target : String) :
    ∀ (srcs : List String) (st : EdgeSt),
      (∀ u l, getEntry u st.G = some l → l.Nodup ∧
        ∀ v ∈ l, ∃ e ∈ st.edges, e.source = u ∧ e.target = v) →
      (∀ t, ((getEntry t st.inDegree).getD 0 : ℤ) =
        ((st.edges.filter (fun e => e.target = t)).length : ℤ)) →
      (∀ u l, getEntry u (srcs.foldl (addEdge defined target) st).G = some l →
        l.Nodup ∧ ∀ v ∈ l, ∃ e ∈ (srcs.foldl (addEdge defined target) st).edges,
          e.source = u ∧ e.target = v) ∧
      (∀ t, ((getEntry t (srcs.foldl (addEdge defined target) st).inDegree).getD 0 : ℤ) =
        (((srcs.foldl (addEdge defined target) st).edges.filter
          (fun e => e.target = t)).length : ℤ))
  | [], _, hG, hd => ⟨hG, hd⟩
  | s :: rest, st, hG, hd => by
    obtain ⟨hG', hd'⟩ := addEdge_G_deg defined target s st hG hd
    exact foldl_addEdge_G_deg defined target rest (addEdge defined target st s) hG' hd'

theorem buildEdges_G_deg (defined : List String) :
    ∀ (insts : List CalledInstance) (st : EdgeSt),
      (∀ u l, getEntry u st.G = some l → l.Nodup ∧
        ∀ v ∈ l, ∃ e ∈ st.edges, e.source = u ∧ e.target = v) →
      (∀ t, ((getEntry t st.inDegree).getD 0 : ℤ) =
        ((st.edges.filter (fun e => e.target = t)).length : ℤ)) →
      (∀ u l, getEntry u (buildEdges defined insts st).G = some l →
        l.Nodup ∧ ∀ v ∈ l, ∃ e ∈ (buildEdges defined insts st).edges,
          e.source = u ∧ e.target = v) ∧
      (∀ t, ((getEntry t (buildEdges defined insts st).inDegree).getD 0 : ℤ) =
        (((buildEdges defined insts st).edges.filter
          (fun e => e.target = t)).length : ℤ))
  | [], _, hG, hd => ⟨hG, hd⟩
  | inst :: rest, st, hG, hd => by
    obtain ⟨hG', hd'⟩ := foldl_addEdge_G_deg defined inst.name
      (scanOutRefs inst.inputs) st hG hd
    exact buildEdges_G_deg defined rest (processInstEdges defined st inst) hG' hd'

theorem edgeStOf_G_deg (src : String) (procs : List NextflowProcess) :
    (∀ u l, getEntry u (edgeStOf src procs).G = some l →
      l.Nodup ∧ ∀ v ∈ l, ∃ e ∈ (edgeStOf src procs).edges,
        e.source = u ∧ e.target = v) ∧
    (∀ t, ((getEntry t (edgeStOf src procs).inDegree).getD 0 : ℤ) =
      (((edgeStOf src procs).edges.filter (fun e => e.target = t)).length : ℤ)) := by
  have hbn := buildNodes_G_deg (calledProcessInstances src procs) ⟨[], [], []⟩
    (by intro u l h; exact absurd h (by simp [getEntry]))
    (by intro t v h; exact absurd h (by simp [getEntry]))
  refine buildEdges_G_deg (definedNames procs) (calledProcessInstances src procs)
    ⟨[], (buildStOf src procs).G, (buildStOf src procs).inDegree⟩ ?_ ?_
  · intro u l hu
    have := hbn.1 u l hu
    subst this
    exact ⟨List.nodup_nil, by simp⟩
  · intro t
    cases hgt : getEntry t (buildStOf src procs).inDegree with
    | none => simp [hgt]
    | some v =>
      have := hbn.2 t v hgt
      subst this
      simp [hgt]

theorem empty_not_nodeId (src : String) (procs : List NextflowProcess) :
    "" ∉ (buildStOf src procs).nodes.map (fun n => n.id) := by
  intro hc
  rw [show buildStOf src procs =
    buildNodes (calledProcessInstances src procs) ⟨[], [], []⟩ from rfl,
    buildNodes_ids_mem] at hc
  rcases hc with hc | hc
  · exact absurd hc (by simp)
  · rcases List.mem_map.mp hc with ⟨c, hcm, hcn⟩
    have := (calledProcessInstances_mem hcm).2.1
    apply this
    have hce : c.name = "" := hcn
    rw [hce]

theorem graphRel_of (src : String) (procs : List NextflowProcess) :
    GraphRel (edgeStOf src procs).G (edgeStOf src procs).edges
      ((buildStOf src procs).nodes.map (fun n => n.id)) := by
  refine ⟨(edgeStOf_G_deg src procs).1, (edgeStOf_inv src procs).1, ?_, ?_⟩
  · intro e he
    exact ((edgeStOf_inv src procs).2 e he).2.2.2.2.1
  · exact empty_not_nodeId src procs

theorem degIsZero_iff (deg : List (String × Int)) (k : String) :
    degIsZero deg k = true ↔ getEntry k deg = some 0 := by
  unfold degIsZero
  cases h : getEntry k deg with
  | none => simp
  | some v => simp

theorem seedQueue_mem {nodes : List VisNode} {deg : List (String × Int)} {v : String}
    (h : v ∈ seedQueue nodes deg) :
    v ∈ nodes.map (fun n => n.id) ∧ getEntry v deg = some 0 := by
  unfold seedQueue at h
  rcases List.mem_map.mp h with ⟨n, hn, rfl⟩
  obtain ⟨hn1, hn2⟩ := List.mem_filter.mp hn
  refine ⟨List.mem_map_of_mem _ hn1, ?_⟩
  exact (degIsZero_iff deg n.id).mp hn2

theorem seedQueue_nodup (nodes : List VisNode) (deg : List (String × Int))
    (h : (nodes.map (fun n => n.id)).Nodup) : (seedQueue nodes deg).Nodup := by
  unfold seedQueue
  exact h.sublist ((List.filter_sublist nodes).map (fun n => n.id))

theorem initial_kahnInv (src : String) (procs : List NextflowProcess) :
    KahnInv (edgeStOf src procs).G (edgeStOf src procs).edges
      ((buildStOf src procs).nodes.map (fun n => n.id)) [] (queueOf src procs)
      (edgeStOf src procs).inDegree := by
  have hcount := (edgeStOf_G_deg src procs).2
  have hqz : ∀ v ∈ queueOf src procs,
      getEntry v (edgeStOf src procs).inDegree = some 0 := by
    intro v hv
    exact (seedQueue_mem hv).2
  have hnoedge : ∀ v ∈ queueOf src procs,
      ∀ e ∈ (edgeStOf src procs).edges, e.target ≠ v := by
    intro v hv e he hc
    have h0 := hcount v
    rw [hqz v hv] at h0
    have hmem : e ∈ (edgeStOf src procs).edges.filter (fun e => e.target = v) :=
      List.mem_filter.mpr ⟨he, by simp [hc]⟩
    have : 1 ≤ ((edgeStOf src procs).edges.filter
        (fun e => e.target = v)).length := List.length_pos_of_mem hmem
    simp only [Option.getD_some] at h0
    omega
  refine ⟨List.nodup_nil, ?_, ?_, ?_, ?_, ?_, ?_, ?_⟩
  · exact seedQueue_nodup _ _ (buildNodes_ids_nodup _ _ (by simp))
  · intro x _
    simp
  · intro x hx
    exact (seedQueue_mem hx).1
  · intro x hx
    exact absurd hx (by simp)
  · intro t
    rw [hcount t]
    simp
  · intro v hv e he ht
    rcases hv with hv | hv
    · exact absurd hv (by simp)
    · exact absurd ht (hnoedge v hv e he)
  · intro v hv
    rcases hv with hv | hv
    · exact absurd hv (by simp)
    · rw [hqz v hv]
      simp

theorem layersOf_props (src : String) (procs : List NextflowProcess) :
    (layeredIds (layersOf src procs)).Nodup ∧
      (∀ v ∈ layeredIds (layersOf src procs),
        v ∈ (buildStOf src procs).nodes.map (fun n => n.id)) ∧
      (∀ e ∈ (edgeStOf src procs).edges,
        e.target ∈ layeredIds (layersOf src procs) →
          e.source ∈ layeredIds (layersOf src procs)) := by
  have hrel := graphRel_of src procs
  have hinit := initial_kahnInv src procs
  have hf : (queueOf src procs).length + degSumPos (edgeStOf src procs).inDegree <
      kahnFuel (queueOf src procs) (edgeStOf src procs).inDegree := by
    unfold kahnFuel
    omega
  obtain ⟨c1, c2, c3⟩ := kahnLoop_inv hrel
    (kahnFuel (queueOf src procs) (edgeStOf src procs).inDegree)
    (queueOf src procs) (edgeStOf src procs).inDegree [] hinit hf
  rw [List.nil_append] at c1 c3
  exact ⟨c1, c2, fun e he ht => c3 e he ht⟩


/-!  Coordinate assignment (claim C7).  -/

theorem placeRow_getEntry_not_mem (nodes : List VisNode) (y : ℚ) :
    ∀ (layer : List String) (start : ℚ) (acc : List (String × ℚ × ℚ)) (nodeId : String),
      nodeId ∉ layer →
      getEntry nodeId (placeRow nodes y layer start acc) = getEntry nodeId acc
  | [], _, _, _, _ => rfl
  | s :: rest, start, acc, nodeId, hmem => by
    have hs : s ≠ nodeId := fun hc => hmem (hc ▸ List.mem_cons_self _ _)
    have hrest : nodeId ∉ rest := fun hc => hmem (List.mem_cons_of_mem _ hc)
    unfold placeRow
    by_cases hh : hasNodeId nodes s
    · rw [if_pos hh, placeRow_getEntry_not_mem nodes y rest _ _ nodeId hrest,
        getEntry_setEntry_ne _ _ _ hs]
    · rw [if_neg hh, placeRow_getEntry_not_mem nodes y rest _ _ nodeId hrest]

theorem placeRow_getEntry (nodes : List VisNode) (y : ℚ) :
    ∀ (layer : List String) (start : ℚ) (acc : List (String × ℚ × ℚ))
      (j : Nat) (nodeId : String),
      layer.get? j = some nodeId → layer.Nodup →
      (∀ s ∈ layer, s ∈ nodes.map (fun n => n.id)) →
      getEntry nodeId (placeRow nodes y layer start acc) =
        some (start + (j : ℚ) * (NODE_WIDTH + X_SPACING), y)
  | [], _, _, j, _, hj, _, _ => by
    simp at hj
  | s :: rest, start, acc, j, nodeId, hj, hnd, hids => by
    have hh : hasNodeId nodes s = true :=
      (hasNodeId_iff nodes s).mpr (hids s (List.mem_cons_self _ _))
    unfold placeRow
    rw [if_pos hh]
    cases j with
    | zero =>
      have hs : s = nodeId := by
        simpa using hj
      subst hs
      have hrest : s ∉ rest := (List.nodup_cons.mp hnd).1
      rw [placeRow_getEntry_not_mem nodes y rest _ _ s hrest, getEntry_setEntry_self]
      norm_num
    | succ j' =>
      have hj' : rest.get? j' = some nodeId := by
        simpa using hj
      rw [placeRow_getEntry nodes y rest (start + NODE_WIDTH + X_SPACING) _ j' nodeId hj'
        (List.nodup_cons.mp hnd).2 (fun x hx => hids x (List.mem_cons_of_mem _ hx))]
      congr 1
      push_cast
      ring_nf

theorem placeLayers_getEntry_not_mem (nodes : List VisNode) (W : ℚ) :
    ∀ (ls : List (List String)) (k : Nat) (acc : List (String × ℚ × ℚ))
      (nodeId : String), nodeId ∉ ls.flatten →
      getEntry nodeId (placeLayers nodes W ls k acc) = getEntry nodeId acc
  | [], _, _, _, _ => rfl
  | L :: rest, k, acc, nodeId, hmem => by
    have h1 : nodeId ∉ L := fun hc =>
      hmem (List.mem_flatten.mpr ⟨L, List.mem_cons_self _ _, hc⟩)
    have h2 : nodeId ∉ rest.flatten := fun hc => by
      rcases List.mem_flatten.mp hc with ⟨L', hL', hc'⟩
      exact hmem (List.mem_flatten.mpr ⟨L', List.mem_cons_of_mem _ hL', hc'⟩)
    show getEntry nodeId (placeLayers nodes W rest (k + 1) _) = getEntry nodeId acc
    rw [placeLayers_getEntry_not_mem nodes W rest (k + 1) _ nodeId h2,
      placeRow_getEntry_not_mem nodes _ L _ acc nodeId h1]

theorem placeLayers_getEntry (nodes : List VisNode) (W : ℚ) :
    ∀ (ls : List (List String)) (k : Nat) (acc : List (String × ℚ × ℚ))
      (i : Nat) (layer : List String) (j : Nat) (nodeId : String),
      ls.get? i = some layer → layer.get? j = some nodeId →
      ls.flatten.Nodup →
      (∀ s ∈ ls.flatten, s ∈ nodes.map (fun n => n.id)) →
      getEntry nodeId (placeLayers nodes W ls k acc) =
        some (codeStartX W layer.length + (j : ℚ) * (NODE_WIDTH + X_SPACING),
          ((k + i : ℕ) : ℚ) * (NODE_HEIGHT + Y_SPACING) + Y_SPACING)
  | [], _, _, i, _, _, _, hi, _, _, _ => by
    simp at hi
  | L :: rest, k, acc, i, layer, j, nodeId, hi, hj, hnd, hids => by
    rw [List.flatten_cons] at hnd hids
    have hLnd : L.Nodup := (List.nodup_append.mp hnd).1
    have hrnd : rest.flatten.Nodup := (List.nodup_append.mp hnd).2.1
    have hdisj : L.Disjoint rest.flatten := (List.nodup_append.mp hnd).2.2
    cases i with
    | zero =>
      have hL : L = layer := by
        simpa using hi
      subst hL
      have hin : nodeId ∈ L := List.get?_mem hj
      have hnotr : nodeId ∉ rest.flatten := fun hc => hdisj hin hc
      show getEntry nodeId (placeLayers nodes W rest (k + 1) _) = _
      rw [placeLayers_getEntry_not_mem nodes W rest (k + 1) _ nodeId hnotr]
      rw [placeRow_getEntry nodes _ L _ acc j nodeId hj hLnd
        (fun s hs => hids s (List.mem_append_left _ hs))]
      congr 2
    | succ i' =>
      have hi' : rest.get? i' = some layer := by
        simpa using hi
      show getEntry nodeId (placeLayers nodes W rest (k + 1) _) = _
      rw [placeLayers_getEntry nodes W rest (k + 1) _ i' layer j nodeId hi' hj hrnd
        (fun s hs => hids s (List.mem_append_right _ hs))]
      congr 2
      push_cast
      ring

/-- Helper: full evaluation of the three-root layout at canvas width 800
(also used to refute claims C2 and C7 as stated). -/
theorem threeSrc_nodes_eval : (parseWorkflowStr 800 threeSrc abcProcs).nodes =
    [ ⟨strA, strA, 80, 100, 180, 60⟩, ⟨strB, strB, 340, 100, 180, 60⟩,
      ⟨strC, strC, 600, 100, 180, 60⟩ ] := by
  have hL : layersOf threeSrc abcProcs = [ [ strA, strB, strC ] ] := by decide
  have hN : (buildStOf threeSrc abcProcs).nodes =
      [ ⟨strA, strA, 0, 0, 180, 60⟩, ⟨strB, strB, 0, 0, 180, 60⟩,
        ⟨strC, strC, 0, 0, 180, 60⟩ ] := by decide
  show (parseWorkflowStr 800 threeSrc abcProcs).nodes = _
  simp only [parseWorkflowStr, positionsOf, hL, hN]
  norm_num [placeLayers, placeRow, hasNodeId, setEntry, applyPositions, getEntry,
    NODE_WIDTH, NODE_HEIGHT, X_SPACING, Y_SPACING, strA, strB, strC]
  decide

/-- Helper: full evaluation of the two-node chain layout at canvas width
800 (used by the C7 witness). -/
theorem chainSrc_nodes_eval : (parseWorkflowStr 800 chainSrc abProcs).nodes =
    [ ⟨strA, strA, 310, 100, 180, 60⟩, ⟨strB, strB, 310, 260, 180, 60⟩ ] := by
  have hL : layersOf chainSrc abProcs = [ [ strA ], [ strB ] ] := by decide
  have hN : (buildStOf chainSrc abProcs).nodes =
      [ ⟨strA, strA, 0, 0, 180, 60⟩, ⟨strB, strB, 0, 0, 180, 60⟩ ] := by decide
  simp only [parseWorkflowStr, positionsOf, hL, hN]
  norm_num [placeLayers, placeRow, hasNodeId, setEntry, applyPositions, getEntry,
    NODE_WIDTH, NODE_HEIGHT, X_SPACING, Y_SPACING, strA, strB]
  decide

/-- Counterexample to C7 as stated: with three nodes in one layer under
the 800-wide canvas the centered leftmost position would be 50 — not
negative — yet the code clamps it to the margin 80, because the fallback
triggers whenever the centered position is below `X_SPACING`, not only
when it would be negative. -/
theorem c7_counterexample : ¬ C7ClaimStatement 800 threeSrc abcProcs := by
  intro h
  have hL : (layersOf threeSrc abcProcs).get? 0 = some [ strA, strB, strC ] := by decide
  have hj : [ strA, strB, strC ].get? 0 = some strA := by decide
  have hmem : (⟨strA, strA, 80, 100, 180, 60⟩ : VisNode) ∈
      (parseWorkflowStr 800 threeSrc abcProcs).nodes := by
    rw [threeSrc_nodes_eval]
    simp
  have hc := (h 0 [ strA, strB, strC ] hL 0 strA hj
    (⟨strA, strA, 80, 100, 180, 60⟩ : VisNode) hmem rfl).1
  norm_num [claimedStartX, NODE_WIDTH, X_SPACING, List.length_cons, List.length_nil] at hc

/-- C7 amended: within every produced layer the nodes are evenly spaced
left to right by `NODE_WIDTH + X_SPACING`, starting from the centered
position clamped below by the margin `X_SPACING` (the fallback triggers
whenever the centered position is less than `X_SPACING`, not only when it
would be negative), and each layer's y is the layer index times
`NODE_HEIGHT + Y_SPACING` plus a top margin of `Y_SPACING`. -/
theorem c7_layout_coordinates (W : ℚ) (src : String) (procs : List NextflowProcess) :
    ∀ i layer, (layersOf src procs).get? i = some layer →
      ∀ j nodeId, layer.get? j = some nodeId →
        ∀ n ∈ (parseWorkflowStr W src procs).nodes, n.id = nodeId →
          n.x = codeStartX W layer.length + (j : ℚ) * (NODE_WIDTH + X_SPACING) ∧
          n.y = (i : ℚ) * (NODE_HEIGHT + Y_SPACING) + Y_SPACING := by
  intro i layer hi j nodeId hj n hn hid
  obtain ⟨hnd, hsub, -⟩ := layersOf_props src procs
  have hpos : getEntry nodeId (positionsOf W src procs) =
      some (codeStartX W layer.length + (j : ℚ) * (NODE_WIDTH + X_SPACING),
        ((0 + i : ℕ) : ℚ) * (NODE_HEIGHT + Y_SPACING) + Y_SPACING) := by
    unfold positionsOf
    exact placeLayers_getEntry _ W (layersOf src procs) 0 [] i layer j nodeId hi hj hnd hsub
  have hn' : n ∈ applyPositions (positionsOf W src procs) (buildStOf src procs).nodes := hn
  unfold applyPositions at hn'
  rcases List.mem_map.mp hn' with ⟨n₀, hn₀, hupd⟩
  have hid₀ : n₀.id = nodeId := by
    rw [← hid, ← hupd]
    cases getEntry n₀.id (positionsOf W src procs) <;> rfl
  rw [← hupd]
  rw [hid₀, hpos]
  constructor
  · rfl
  · show ((0 + i : ℕ) : ℚ) * (NODE_HEIGHT + Y_SPACING) + Y_SPACING = _
    push_cast
    ring

/-- Witness for the amended C7, at the two-node chain: node `A` sits at
the centered x 310 of a one-node layer and at y 100. -/
theorem c7_layout_coordinates_witness :
    (layersOf chainSrc abProcs).get? 0 = some [ strA ] ∧
      [ strA ].get? 0 = some strA ∧
      (⟨strA, strA, 310, 100, 180, 60⟩ : VisNode) ∈
        (parseWorkflowStr 800 chainSrc abProcs).nodes ∧
      ((⟨strA, strA, 310, 100, 180, 60⟩ : VisNode).x =
          codeStartX 800 [ strA ].length + ((0 : ℕ) : ℚ) * (NODE_WIDTH + X_SPACING) ∧
        (⟨strA, strA, 310, 100, 180, 60⟩ : VisNode).y =
          ((0 : ℕ) : ℚ) * (NODE_HEIGHT + Y_SPACING) + Y_SPACING) := by
  have hmem : (⟨strA, strA, 310, 100, 180, 60⟩ : VisNode) ∈
      (parseWorkflowStr 800 chainSrc abProcs).nodes := by
    rw [chainSrc_nodes_eval]
    simp
  exact ⟨by decide, by decide, hmem,
    c7_layout_coordinates 800 chainSrc abProcs 0 [ strA ] (by decide) 0 strA (by decide)
      (⟨strA, strA, 310, 100, 180, 60⟩ : VisNode) hmem rfl⟩

/-!  Edge creation (claim C3).  -/

end NextflowViz
